import Mathlib

/-!
A verification development for the direction-optimizing BFS kernel in
src/gms/representations/graphs/log_graph/kbit_bfs.cc.

The C++ code is shallowly embedded as executable Lean functions:

* the graph abstraction (num_nodes, out_degree, neighbor enumeration) is a
  structure with a per-vertex neighbor list;
* the shared parent array is a function Nat → Int, updated pointwise;
* bitmaps are functions Nat → Bool;
* the sliding queue is a plain list;
* the OpenMP parallel loops are modelled by their sequential execution
  (the loop body is applied to the indices in order); for BUStep each index
  writes only its own parent entry so this coincides with any interleaving,
  and for TDStep the sequential order is one admissible resolution of the
  compare-and-swap races;
* the two unbounded C++ loops (the do-while in DOBFS's bottom-up block and
  the outer while) are given explicit fuel g.n + 2; termination theorems
  below prove this fuel is never exhausted.

Machine integers (int64_t) never overflow in the modelled quantities, so
they are embedded as unbounded Int; C++ integer division truncates toward
zero, which is Int.tdiv.

The expansion of the ITERATE_NEIGHBOURHOOD macro lives in
kbit_adjacency_array.h, which is not part of the sources under study; the
visible code applies the same macro to a vertex u in TDStep, BUStep and
both loops of BFSVerifier.  It is modelled from the spec as enumerating a
single per-vertex neighbor list (Graph.adj u), identical at every call
site, matching the spec's single enumerable-neighbors-of(vertex)
capability.
-/

/-- A finite graph as the kernel sees it: a vertex count and, for every
vertex, the list of neighbors that ITERATE_NEIGHBOURHOOD enumerates, in
enumeration order.  out_degree is the length of that list and
num_edges_directed is the total length over all vertices. -/
structure Graph where
  n : Nat
  adj : Nat → List Nat

/-- Well-formedness: every enumerated neighbor of an in-range vertex is in
range (the C++ code indexes parent and the bitmaps with these values). -/
def Graph.WF (g : Graph) : Prop :=
  ∀ u ∈ List.range g.n, ∀ v ∈ g.adj u, v < g.n

/-- Symmetry of the neighbor lists: whenever v is enumerated from an
in-range u, u is enumerated from v.  This holds when the stored graph is
undirected (as in the spec's triangle scenario). -/
def Graph.Symm (g : Graph) : Prop :=
  ∀ u ∈ List.range g.n, ∀ v ∈ g.adj u, u ∈ g.adj v

/-- g.out_degree(u). -/
def Graph.outDegree (g : Graph) (u : Nat) : Nat :=
  (g.adj u).length

/-- g.num_edges_directed(): total number of enumerated (directed) edges. -/
def Graph.numEdgesDirected (g : Graph) : Nat :=
  ((List.range g.n).map g.outDegree).sum

/-- Pointwise update of a function, used for parent-array writes and
bitmap set_bit. -/
def fupd {α : Type} (f : Nat → α) (u : Nat) (x : α) : Nat → α :=
  fun w => if w = u then x else f w

/-! ### Independent sequential BFS reachability

reachB g s k v says that v is reachable from s in at most k edge steps,
computed by the level-synchronous frontier expansion that a sequential BFS
performs; distIs g s v d says that d is theBFS depth of v (least number of
steps).  This is the "depth defined by an independent sequential BFS" of
the spec, stated independently of the traversal under verification. -/

/-- One BFS expansion step: keep everything reached so far and add every
vertex enumerated from a reached in-range vertex. -/
def nbrStep (g : Graph) (r : Nat → Bool) : Nat → Bool :=
  fun v => r v || (List.range g.n).any (fun u => r u && decide (v ∈ g.adj u))

/-- reachB g s k v: v is reachable from s within k steps. -/
def reachB (g : Graph) (s : Nat) : Nat → Nat → Bool
  | 0 => fun v => decide (v = s)
  | k+1 => nbrStep g (reachB g s k)

/-- v is reachable from s (in any number of steps). -/
def Reachable (g : Graph) (s v : Nat) : Prop :=
  ∃ k, reachB g s k v = true

/-- distIs g s v d: the BFS depth of v from s is exactly d. -/
def distIs (g : Graph) (s v : Nat) (d : Nat) : Prop :=
  reachB g s d v = true ∧ ∀ j < d, reachB g s j v = false

/-! ### The traversal state and the steps, from kbit_bfs.cc -/

/-- InitParent (kbit_bfs.cc lines 117-123): parent[n] is -out_degree(n) if
the degree is nonzero and -1 otherwise. -/
def InitParent (g : Graph) : Nat → Int :=
  fun u => if g.outDegree u ≠ 0 then -(g.outDegree u : Int) else -1

/-- The body of BUStep's parallel loop for one vertex index u.
State: (parent, next bitmap, awake_count).  A vertex u with parent[u] < 0
scans its neighbors and claims the first one whose bit is set in front,
marks u in next and counts it. -/
def buBody (g : Graph) (front : Nat → Bool)
    (st : (Nat → Int) × (Nat → Bool) × Int) (u : Nat) : (Nat → Int) × (Nat → Bool) × Int :=
  if st.1 u < 0 then
    match (g.adj u).find? front with
    | some v => (fupd st.1 u (v : Int), fupd st.2.1 u true, st.2.2 + 1)
    | none => st
  else st

/-- The bottom-up loop body folded over a list of vertex indices. -/
def buFold (g : Graph) (front : Nat → Bool) (l : List Nat)
    (st : (Nat → Int) × (Nat → Bool) × Int) : (Nat → Int) × (Nat → Bool) × Int :=
  l.foldl (buBody g front) st

/-- BUStep (kbit_bfs.cc lines 47-66).  The next bitmap is reset at the
start of the call; the loop runs over all vertices.  Returns the updated
parent array, the next-frontier bitmap and awake_count. -/
def BUStep (g : Graph) (p : Nat → Int) (front : Nat → Bool) :
    (Nat → Int) × (Nat → Bool) × Int :=
  buFold g front (List.range g.n) (p, fun _ => false, 0)

/-- The body of TDStep's neighbor loop when expanding frontier vertex u
at neighbor candidate v: a candidate with parent[v] < 0 is claimed (the
compare-and-swap succeeds in the sequential model), pushed onto the
output queue, and -old_value is added to scout_count.
State: (parent, output queue, scout_count). -/
def tdBody (u : Nat) (st : (Nat → Int) × List Nat × Int) (v : Nat) :
    (Nat → Int) × List Nat × Int :=
  if st.1 v < 0 then (fupd st.1 v (u : Int), st.2.1 ++ [v], st.2.2 + -(st.1 v))
  else st

/-- The top-down claiming body folded over a list of neighbor candidates. -/
def tdFold (u : Nat) (l : List Nat) (st : (Nat → Int) × List Nat × Int) :
    (Nat → Int) × List Nat × Int :=
  l.foldl (tdBody u) st

/-- The body of TDStep for a single frontier vertex u: iterate u's
neighbors, claiming the unvisited ones. -/
def tdVisit (g : Graph) (u : Nat) (st : (Nat → Int) × List Nat × Int) :
    (Nat → Int) × List Nat × Int :=
  tdFold u (g.adj u) st

/-- The fold of tdVisit over a list of frontier vertices. -/
def tdRun (g : Graph) (q : List Nat) (st : (Nat → Int) × List Nat × Int) :
    (Nat → Int) × List Nat × Int :=
  q.foldl (fun st u => tdVisit g u st) st

/-- TDStep (kbit_bfs.cc lines 68-93): expand every queue vertex; returns
the updated parent array, the flushed next-frontier queue, and
scout_count. -/
def TDStep (g : Graph) (p : Nat → Int) (queue : List Nat) :
    (Nat → Int) × List Nat × Int :=
  tdRun g queue (p, [], 0)

/-- QueueToBitmap (kbit_bfs.cc lines 95-101): set the bit of every queue
element in the given bitmap (bits already set remain set). -/
def QueueToBitmap (queue : List Nat) (bm : Nat → Bool) : Nat → Bool :=
  queue.foldl (fun bm u => fupd bm u true) bm

/-- BitmapToQueue (kbit_bfs.cc lines 103-115): push every in-range vertex
whose bit is set, in ascending order, and slide the window. -/
def BitmapToQueue (g : Graph) (bm : Nat → Bool) : List Nat :=
  (List.range g.n).filter (fun v => bm v)

/-- The do-while loop of DOBFS's bottom-up block (kbit_bfs.cc lines
160-172): run BUStep, swap the bitmaps (the new front is BUStep's output
bitmap), and continue while awake_count >= old_awake_count or
awake_count > num_nodes / beta.  Fuel-indexed; returns none if the fuel is
exhausted (the termination theorem shows fuel g.n + 2 always suffices). -/
def buLoop (g : Graph) (beta : Int) :
    Nat → (Nat → Int) → (Nat → Bool) → Int → Option ((Nat → Int) × (Nat → Bool))
  | 0, _, _, _ => none
  | fuel+1, p, front, awake =>
    if (BUStep g p front).2.2 ≥ awake ∨ (BUStep g p front).2.2 > Int.tdiv (g.n : Int) beta then
      buLoop g beta fuel (BUStep g p front).1 (BUStep g p front).2.1 (BUStep g p front).2.2
    else
      some ((BUStep g p front).1, (BUStep g p front).2.1)

/-- The controller state of DOBFS's while loop: the parent array, the
frontier queue, the front bitmap (which persists across iterations), and
the two scalar statistics. -/
structure DState where
  parent : Nat → Int
  queue : List Nat
  front : Nat → Bool
  edgesToCheck : Int
  scout : Int

/-- The while loop of DOBFS (kbit_bfs.cc lines 149-193).  If
scout_count > edges_to_check / alpha (C++ integer division, i.e. Int.tdiv)
the frontier is converted to a bitmap, awake_count starts as the queue
size, the bottom-up loop runs, the resulting bitmap is converted back to a
queue and scout_count is reset to 1; otherwise edges_to_check is
decremented by scout_count and a top-down step runs. -/
def dobfsLoop (g : Graph) (alpha beta : Int) : Nat → DState → Option (Nat → Int)
  | 0, _ => none
  | fuel+1, st =>
    if st.queue = [] then some st.parent
    else if st.scout > Int.tdiv st.edgesToCheck alpha then
      match buLoop g beta (g.n + 2) st.parent (QueueToBitmap st.queue st.front)
          (st.queue.length : Int) with
      | none => none
      | some pf =>
        dobfsLoop g alpha beta fuel
          ⟨pf.1, BitmapToQueue g pf.2, pf.2, st.edgesToCheck, 1⟩
    else
      dobfsLoop g alpha beta fuel
        ⟨(TDStep g st.parent st.queue).1, (TDStep g st.parent st.queue).2.1, st.front,
          st.edgesToCheck - st.scout, (TDStep g st.parent st.queue).2.2⟩

/-- DOBFS (kbit_bfs.cc lines 125-195): initialize the parent array, set
parent[source] = source, seed the queue with the source, reset the
bitmaps, set edges_to_check to the directed edge count and scout_count to
the source's out-degree, then run the controller loop. -/
def dobfs (g : Graph) (source : Nat) (alpha beta : Int) : Option (Nat → Int) :=
  dobfsLoop g alpha beta (g.n + 2)
    ⟨fupd (InitParent g) source (source : Int), [source], (fun _ => false),
      (g.numEdgesDirected : Int), (g.outDegree source : Int)⟩

/-! ### The verifier, from kbit_bfs.cc lines 216-263 -/

/-- Expand one vertex of the verifier's sequential BFS: for every neighbor
v with depth[v] = -1, set depth[v] = depth[u] + 1 and append v to the
visit list.  State: (depth array, newly pushed vertices). -/
def bfsExpand (g : Graph) (u : Nat) (st : (Nat → Int) × List Nat) :
    (Nat → Int) × List Nat :=
  (g.adj u).foldl
    (fun st v =>
      if st.1 v = -1 then (fupd st.1 v (st.1 u + 1), st.2 ++ [v]) else st)
    st

/-- The verifier's BFS loop over the growing to_visit vector, modelled as
queue processing with fuel (g.n suffices for well-formed graphs since
every push freshly assigns a depth). -/
def bfsRun (g : Graph) : Nat → (Nat → Int) → List Nat → (Nat → Int)
  | 0, depth, _ => depth
  | _, depth, [] => depth
  | fuel+1, depth, u :: rest =>
    bfsRun g fuel (bfsExpand g u (depth, [])).1 (rest ++ (bfsExpand g u (depth, [])).2)

/-- The depth array computed by BFSVerifier's independent sequential BFS:
all entries -1 except depth[source] = 0, then BFS from the source. -/
def verifierDepth (g : Graph) (source : Nat) : Nat → Int :=
  bfsRun g g.n (fupd (fun _ => (-1 : Int)) source 0) [source]

/-- The per-vertex check of BFSVerifier: if u was reached by the
independent BFS and parent[u] is not -1 then either u is the source (which
must be its own parent at depth 0) or the first enumerated neighbor equal
to parent[u] must sit one level higher (and such a neighbor must exist);
otherwise depth[u] must equal parent[u]. -/
def verifierCheck (g : Graph) (source : Nat) (parent depth : Nat → Int) (u : Nat) : Bool :=
  if depth u ≠ -1 ∧ parent u ≠ -1 then
    if u = source then decide (parent u = u) && decide (depth u = 0)
    else
      match (g.adj u).find? (fun (v : Nat) => decide ((v : Int) = parent u)) with
      | some v => decide (depth v = depth u - 1)
      | none => false
  else decide (depth u = parent u)

/-- BFSVerifier (kbit_bfs.cc lines 216-263): run the independent
sequential BFS, then check every vertex; any failed check makes the whole
verification fail. -/
def BFSVerifier (g : Graph) (source : Nat) (parent : Nat → Int) : Bool :=
  (List.range g.n).all (verifierCheck g source parent (verifierDepth g source))

/-! ### Concrete graphs used by the claims -/

/-- The path graph with directed edges 0→1, 1→2, 2→3 exactly as written
(each edge enumerated only at its tail). -/
def pathDir : Graph :=
  ⟨4, fun u => match u with | 0 => [1] | 1 => [2] | 2 => [3] | _ => []⟩

/-- The path 0-1-2-3 with every edge enumerated in both directions (the
undirected storage of the same path). -/
def pathSym : Graph :=
  ⟨4, fun u => match u with | 0 => [1] | 1 => [0, 2] | 2 => [1, 3] | _ => [2]⟩

/-- A directed graph on {0,1,2} with edges 0→1, 2→0, 2→1: vertex 2 is not
reachable from 0 but sees the frontier through its outgoing edges. -/
def gDir3 : Graph :=
  ⟨3, fun u => match u with | 0 => [1] | 1 => [] | _ => [0, 1]⟩

/-- A symmetric graph on {0,1,2,3}: 0 isolated and a star 1-2, 1-3, so
vertex 1 is unreachable from source 0 and has degree 2. -/
def gUnreach : Graph :=
  ⟨4, fun u => match u with | 0 => [] | 1 => [2, 3] | 2 => [1] | _ => [1]⟩

/-- A two-vertex graph with the single edge 0→1; vertex 1 has out-degree
0, so its unvisited encoding is -1. -/
def gDeg0 : Graph :=
  ⟨2, fun u => match u with | 0 => [1] | _ => []⟩

instance (g : Graph) : Decidable g.WF :=
  inferInstanceAs (Decidable (∀ u ∈ List.range g.n, ∀ v ∈ g.adj u, v < g.n))

instance (g : Graph) : Decidable g.Symm :=
  inferInstanceAs (Decidable (∀ u ∈ List.range g.n, ∀ v ∈ g.adj u, u ∈ g.adj v))

/-- Number of unvisited (negative) parent entries among the in-range
vertices; the measure that bounds both loops. -/
def negCount (g : Graph) (p : Nat → Int) : Nat :=
  (List.range g.n).countP (fun u => decide (p u < 0))

/-- The implicit claimed-predecessor invariant: the source is its own
parent, and every other visited vertex records an in-range predecessor
that is itself visited. -/
def GoodParent (g : Graph) (s : Nat) (p : Nat → Int) : Prop :=
  p s = (s : Int) ∧
  ∀ u, u < g.n → u ≠ s → 0 ≤ p u →
    ∃ v : Nat, p u = (v : Int) ∧ v < g.n ∧ 0 ≤ p v

/-- The parent-array part of the traversal invariant at BFS level d:
visited in-range vertices are exactly those of depth at most d, every
visited non-source vertex records an enumerated edge from its parent one
level up, unvisited entries still hold their initial encoding, and the
source is its own parent. -/
structure PInv (g : Graph) (s : Nat) (d : Nat) (p : Nat → Int) : Prop where
  visited_iff : ∀ u, u < g.n → (0 ≤ p u ↔ ∃ e, e ≤ d ∧ distIs g s u e)
  parentEdge : ∀ u, u < g.n → u ≠ s → 0 ≤ p u →
    ∃ (v : Nat) (e : Nat), p u = (v : Int) ∧ v < g.n ∧ u ∈ g.adj v ∧
      distIs g s v e ∧ distIs g s u (e + 1)
  negInit : ∀ u, u < g.n → p u < 0 → p u = InitParent g u
  srcSelf : p s = (s : Int)

/-- The full invariant at the head of DOBFS's while loop: the parent
invariant at level d, the queue holding exactly the level-d vertices, and
the persistent front bitmap containing only visited in-range vertices. -/
structure LoopInv (g : Graph) (s : Nat) (d : Nat) (p : Nat → Int)
    (queue : List Nat) (front : Nat → Bool) : Prop where
  pinv : PInv g s d p
  queueIff : ∀ u, u ∈ queue ↔ (u < g.n ∧ distIs g s u d)
  frontVis : ∀ v, front v = true → v < g.n ∧ ∃ e, e ≤ d ∧ distIs g s v e

/-- The bitmap invariant holding at every bottom-up round at level d: all
set bits are visited in-range vertices and every level-d vertex is set. -/
def BFront (g : Graph) (s : Nat) (d : Nat) (front : Nat → Bool) : Prop :=
  (∀ v, front v = true → v < g.n ∧ ∃ e, e ≤ d ∧ distIs g s v e) ∧
  (∀ v, v < g.n → distIs g s v d → front v = true)

/-- The specification of a completed traversal from an in-range source:
exactly what the amended claim C1 states. -/
def ForestSpec (g : Graph) (s : Nat) (p : Nat → Int) : Prop :=
  p s = (s : Int) ∧
  (∀ u, u < g.n → Reachable g s u → 0 ≤ p u) ∧
  (∀ u, u < g.n → Reachable g s u → u ≠ s →
    ∃ (v : Nat) (e : Nat), p u = (v : Int) ∧ v < g.n ∧ u ∈ g.adj v ∧
      distIs g s v e ∧ distIs g s u (e + 1)) ∧
  (∀ u, u < g.n → ¬Reachable g s u → p u = InitParent g u)

/-- A concrete controller state (used to exercise the phase-switch rule on
the symmetric path graph: scout_count 1 exceeds edges_to_check 6 divided by
alpha 15). -/
def cState : DState :=
  ⟨fupd (InitParent pathSym) 0 (0 : Int), [0], (fun _ => false), 6, 1⟩

/-! ### Elementary lemmas about the building blocks -/

theorem fupd_self {α : Type} (f : Nat → α) (u : Nat) (x : α) : fupd f u x u = x := by
  simp [fupd]

theorem fupd_ne {α : Type} (f : Nat → α) (u : Nat) (x : α) {w : Nat} (h : w ≠ u) :
    fupd f u x w = f w := by
  simp [fupd, h]

theorem countP_split (l : List Nat) (P Q : Nat → Bool) :
    l.countP (fun v => P v && Q v) + l.countP (fun v => P v && !Q v) = l.countP P := by
  induction l with
  | nil => simp
  | cons h t ih =>
    simp only [List.countP_cons]
    cases hP : P h <;> cases hQ : Q h <;> simp [hP, hQ] <;> omega

theorem countP_mem_nodup (l out : List Nat) (hl : l.Nodup) (hout : out.Nodup)
    (hsub : ∀ v ∈ out, v ∈ l) :
    l.countP (fun v => decide (v ∈ out)) = out.length := by
  rw [List.countP_eq_length_filter]
  have hperm : (l.filter (fun v => decide (v ∈ out))).Perm out := by
    apply List.perm_of_nodup_nodup_toFinset_eq (hl.filter _) hout
    ext x
    simp only [List.mem_toFinset, List.mem_filter, decide_eq_true_eq]
    exact ⟨fun hx => hx.2, fun hx => ⟨hsub x hx, hx⟩⟩
  exact hperm.length_eq

theorem countP_lt_of_flip (l : List Nat) (P Q : Nat → Bool)
    (hmono : ∀ v ∈ l, Q v = true → P v = true)
    (v₀ : Nat) (hv₀ : v₀ ∈ l) (hP : P v₀ = true) (hQ : Q v₀ = false) :
    l.countP Q < l.countP P := by
  induction l with
  | nil => cases hv₀
  | cons h t ih =>
    simp only [List.countP_cons]
    rcases List.mem_cons.mp hv₀ with rfl | hmem
    · have h1 : t.countP Q ≤ t.countP P :=
        List.countP_mono_left (fun x hx => by
          intro hq
          exact hmono x (List.mem_cons_of_mem _ hx) hq)
      simp [hP, hQ]
      omega
    · have h2 := ih (fun x hx => hmono x (List.mem_cons_of_mem _ hx)) hmem
      have h3 : (if Q h = true then 1 else 0) ≤ (if P h = true then 1 else 0) := by
        by_cases hq : Q h = true
        · simp [hq, hmono h (List.mem_cons_self h t) hq]
        · rw [if_neg hq]
          split <;> omega
      omega

theorem qtb_get (q : List Nat) (bm : Nat → Bool) (v : Nat) :
    QueueToBitmap q bm v = true ↔ (bm v = true ∨ v ∈ q) := by
  induction q generalizing bm with
  | nil => simp [QueueToBitmap]
  | cons h t ih =>
    show QueueToBitmap t (fupd bm h true) v = true ↔ _
    rw [ih]
    by_cases hv : v = h
    · subst hv; simp [fupd_self]
    · rw [fupd_ne _ _ _ hv]
      simp [List.mem_cons, hv]

theorem btq_mem (g : Graph) (bm : Nat → Bool) (v : Nat) :
    v ∈ BitmapToQueue g bm ↔ (v < g.n ∧ bm v = true) := by
  simp [BitmapToQueue, List.mem_filter, List.mem_range]

theorem btq_nodup (g : Graph) (bm : Nat → Bool) : (BitmapToQueue g bm).Nodup :=
  (List.nodup_range g.n).filter _

/-! ### Characterization of the bottom-up fold -/

theorem buBody_claim (g : Graph) (front : Nat → Bool)
    (st : (Nat → Int) × (Nat → Bool) × Int) (u v : Nat)
    (hneg : st.1 u < 0) (hfind : (g.adj u).find? front = some v) :
    buBody g front st u = (fupd st.1 u (v : Int), fupd st.2.1 u true, st.2.2 + 1) := by
  rw [buBody, if_pos hneg, hfind]

theorem buBody_keep (g : Graph) (front : Nat → Bool)
    (st : (Nat → Int) × (Nat → Bool) × Int) (u : Nat)
    (hcase : (g.adj u).find? front = none ∨ 0 ≤ st.1 u) :
    buBody g front st u = st := by
  rcases hcase with hfind | hpos
  · rw [buBody]
    by_cases hp : st.1 u < 0
    · rw [if_pos hp, hfind]
    · rw [if_neg hp]
  · rw [buBody, if_neg (by omega)]

theorem buBody_other (g : Graph) (front : Nat → Bool)
    (st : (Nat → Int) × (Nat → Bool) × Int) (u : Nat) {w : Nat} (hw : w ≠ u) :
    (buBody g front st u).1 w = st.1 w ∧ (buBody g front st u).2.1 w = st.2.1 w := by
  rw [buBody]
  by_cases hp : st.1 u < 0
  · rcases hfind : (g.adj u).find? front with _ | v <;>
      simp [hfind, hp, fupd_ne _ _ _ hw]
  · simp [hp]

theorem buFold_cons (g : Graph) (front : Nat → Bool) (u : Nat) (l : List Nat)
    (st : (Nat → Int) × (Nat → Bool) × Int) :
    buFold g front (u :: l) st = buFold g front l (buBody g front st u) := rfl

theorem buFold_notmem (g : Graph) (front : Nat → Bool) :
    ∀ (l : List Nat) (st : (Nat → Int) × (Nat → Bool) × Int) (u : Nat), u ∉ l →
      (buFold g front l st).1 u = st.1 u ∧ (buFold g front l st).2.1 u = st.2.1 u := by
  intro l
  induction l with
  | nil => intro st u _; exact ⟨rfl, rfl⟩
  | cons h t ih =>
    intro st u hu
    have hne : u ≠ h := fun hc => hu (hc ▸ List.mem_cons_self h t)
    have hut : u ∉ t := fun hc => hu (List.mem_cons_of_mem _ hc)
    rw [buFold_cons]
    rcases ih (buBody g front st h) u hut with ⟨h1, h2⟩
    rcases buBody_other g front st h hne with ⟨k1, k2⟩
    exact ⟨h1.trans k1, h2.trans k2⟩

theorem buFold_claim (g : Graph) (front : Nat → Bool) :
    ∀ (l : List Nat), l.Nodup →
    ∀ (st : (Nat → Int) × (Nat → Bool) × Int) (u v : Nat), u ∈ l → st.1 u < 0 →
      (g.adj u).find? front = some v →
      (buFold g front l st).1 u = (v : Int) ∧ (buFold g front l st).2.1 u = true := by
  intro l
  induction l with
  | nil => intro _ st u v hu; cases hu
  | cons h t ih =>
    intro hnd st u v hu hneg hfind
    rw [buFold_cons]
    rcases List.mem_cons.mp hu with rfl | hmem
    · have hut : u ∉ t := (List.nodup_cons.mp hnd).1
      rw [buBody_claim g front st u v hneg hfind]
      rcases buFold_notmem g front t _ u hut with ⟨h1, h2⟩
      exact ⟨h1.trans (fupd_self _ _ _), h2.trans (fupd_self _ _ _)⟩
    · have hne : u ≠ h := fun hc => (List.nodup_cons.mp hnd).1 (hc ▸ hmem)
      rcases buBody_other g front st h hne with ⟨k1, k2⟩
      exact ih (List.nodup_cons.mp hnd).2 _ u v hmem (by rw [k1]; exact hneg) hfind

theorem buFold_keep (g : Graph) (front : Nat → Bool) :
    ∀ (l : List Nat) (st : (Nat → Int) × (Nat → Bool) × Int) (u : Nat),
      ((g.adj u).find? front = none ∨ 0 ≤ st.1 u) →
      (buFold g front l st).1 u = st.1 u ∧ (buFold g front l st).2.1 u = st.2.1 u := by
  intro l
  induction l with
  | nil => intro st u _; exact ⟨rfl, rfl⟩
  | cons h t ih =>
    intro st u hcase
    rw [buFold_cons]
    by_cases hu : u = h
    · subst hu
      rw [buBody_keep g front st u hcase]
      exact ih st u hcase
    · rcases buBody_other g front st h hu with ⟨k1, k2⟩
      have hcase' : (g.adj u).find? front = none ∨ 0 ≤ (buBody g front st h).1 u := by
        rcases hcase with hf | hpos
        · exact Or.inl hf
        · exact Or.inr (by rw [k1]; exact hpos)
      rcases ih _ u hcase' with ⟨r1, r2⟩
      exact ⟨r1.trans k1, r2.trans k2⟩

theorem buFold_count (g : Graph) (front : Nat → Bool) :
    ∀ (l : List Nat), l.Nodup →
    ∀ (st : (Nat → Int) × (Nat → Bool) × Int),
      (buFold g front l st).2.2 =
        st.2.2 + (l.countP (fun u => decide (st.1 u < 0) && ((g.adj u).find? front).isSome) : Int) := by
  intro l
  induction l with
  | nil => intro _ st; simp [buFold]
  | cons h t ih =>
    intro hnd st
    rw [buFold_cons, List.countP_cons]
    by_cases hp : st.1 h < 0
    · rcases hfind : (g.adj h).find? front with _ | w
      · rw [buBody_keep g front st h (Or.inl hfind), ih (List.nodup_cons.mp hnd).2 st]
        simp [hp, hfind]
      · rw [buBody_claim g front st h w hp hfind,
            ih (List.nodup_cons.mp hnd).2 (fupd st.1 h (w : Int), fupd st.2.1 h true, st.2.2 + 1)]
        rw [if_pos (show (decide (st.1 h < 0) && (Option.some w).isSome) = true by simp [hp])]
        have hagree : t.countP (fun u =>
            decide ((fupd st.1 h (w : Int), fupd st.2.1 h true, st.2.2 + 1).1 u < 0) &&
              ((g.adj u).find? front).isSome) =
            t.countP (fun u => decide (st.1 u < 0) && ((g.adj u).find? front).isSome) := by
          apply List.countP_congr
          intro x hx
          have hxh : x ≠ h := by
            intro hc
            subst hc
            exact (List.nodup_cons.mp hnd).1 hx
          show (decide ((fupd st.1 h (w : Int)) x < 0) && ((g.adj x).find? front).isSome) = true ↔
            (decide (st.1 x < 0) && ((g.adj x).find? front).isSome) = true
          rw [fupd_ne _ _ _ hxh]
        rw [hagree]
        push_cast
        ring
    · rw [buBody_keep g front st h (Or.inr (by omega)), ih (List.nodup_cons.mp hnd).2 st]
      have : (decide (st.1 h < 0) && ((g.adj h).find? front).isSome) = false := by
        simp [hp]
      rw [this]
      simp

theorem bustep_claim (g : Graph) (p : Nat → Int) (front : Nat → Bool) (u v : Nat)
    (hu : u < g.n) (hneg : p u < 0) (hfind : (g.adj u).find? front = some v) :
    (BUStep g p front).1 u = (v : Int) ∧ (BUStep g p front).2.1 u = true :=
  buFold_claim g front _ (List.nodup_range g.n) _ u v (List.mem_range.mpr hu) hneg hfind

theorem bustep_keep (g : Graph) (p : Nat → Int) (front : Nat → Bool) (u : Nat)
    (hcase : (g.adj u).find? front = none ∨ 0 ≤ p u) :
    (BUStep g p front).1 u = p u ∧ (BUStep g p front).2.1 u = false :=
  buFold_keep g front _ _ u hcase

theorem bustep_off (g : Graph) (p : Nat → Int) (front : Nat → Bool) (u : Nat)
    (hu : ¬ u < g.n) :
    (BUStep g p front).1 u = p u ∧ (BUStep g p front).2.1 u = false :=
  buFold_notmem g front _ _ u (fun hc => hu (List.mem_range.mp hc))

theorem bustep_count (g : Graph) (p : Nat → Int) (front : Nat → Bool) :
    (BUStep g p front).2.2 =
      ((List.range g.n).countP
        (fun u => decide (p u < 0) && ((g.adj u).find? front).isSome) : Int) := by
  have h := buFold_count g front _ (List.nodup_range g.n) (p, fun _ => false, 0)
  simpa using h

/-! ### Characterization of the top-down fold -/

theorem tdFold_cons (u v : Nat) (l : List Nat) (st : (Nat → Int) × List Nat × Int) :
    tdFold u (v :: l) st = tdFold u l (tdBody u st v) := rfl

theorem tdFold_spec (u : Nat) :
    ∀ (l : List Nat) (p : Nat → Int) (out : List Nat) (s : Int),
    ∃ newly : List Nat,
      (tdFold u l (p, out, s)).2.1 = out ++ newly ∧
      newly.Nodup ∧
      (∀ v, v ∈ newly ↔ (v ∈ l ∧ p v < 0)) ∧
      (∀ v, v ∈ newly → (tdFold u l (p, out, s)).1 v = (u : Int)) ∧
      (∀ v, v ∉ newly → (tdFold u l (p, out, s)).1 v = p v) ∧
      (tdFold u l (p, out, s)).2.2 = s + (newly.map (fun v => -(p v))).sum := by
  intro l
  induction l with
  | nil =>
    intro p out s
    exact ⟨[], by simp [tdFold], List.nodup_nil, by simp, by simp, fun _ _ => rfl, by simp [tdFold]⟩
  | cons v t ih =>
    intro p out s
    by_cases hv : p v < 0
    · have hbody : tdBody u (p, out, s) v = (fupd p v (u : Int), out ++ [v], s + -(p v)) := by
        rw [tdBody, if_pos hv]
      rcases ih (fupd p v (u : Int)) (out ++ [v]) (s + -(p v)) with
        ⟨n₁, hout, hnd, hmem, hclaim, hkeep, hsum⟩
      have hrw : tdFold u (v :: t) (p, out, s) =
          tdFold u t (fupd p v (u : Int), out ++ [v], s + -(p v)) := by
        rw [tdFold_cons, hbody]
      have hvn₁ : v ∉ n₁ := by
        intro hc
        have := ((hmem v).mp hc).2
        rw [fupd_self] at this
        omega
      refine ⟨v :: n₁, ?_, List.nodup_cons.mpr ⟨hvn₁, hnd⟩, ?_, ?_, ?_, ?_⟩
      · rw [hrw, hout, List.append_assoc, List.singleton_append]
      · intro w
        constructor
        · intro hw
          rcases List.mem_cons.mp hw with rfl | hw'
          · exact ⟨List.mem_cons_self _ _, hv⟩
          · rcases (hmem w).mp hw' with ⟨hwt, hwp⟩
            have hwv : w ≠ v := fun hc => hvn₁ (hc ▸ hw')
            rw [fupd_ne _ _ _ hwv] at hwp
            exact ⟨List.mem_cons_of_mem _ hwt, hwp⟩
        · intro ⟨hwl, hwp⟩
          rcases List.mem_cons.mp hwl with rfl | hwt
          · exact List.mem_cons_self _ _
          · by_cases hwv : w = v
            · subst hwv; exact List.mem_cons_self _ _
            · refine List.mem_cons_of_mem _ ((hmem w).mpr ⟨hwt, ?_⟩)
              rw [fupd_ne _ _ _ hwv]
              exact hwp
      · intro w hw
        rcases List.mem_cons.mp hw with rfl | hw'
        · rw [hrw, hkeep w hvn₁, fupd_self]
        · rw [hrw]; exact hclaim w hw'
      · intro w hw
        have hwv : w ≠ v := fun hc => hw (hc ▸ List.mem_cons_self _ _)
        have hwn₁ : w ∉ n₁ := fun hc => hw (List.mem_cons_of_mem _ hc)
        rw [hrw, hkeep w hwn₁, fupd_ne _ _ _ hwv]
      · rw [hrw, hsum]
        have hcg : n₁.map (fun w => -((fupd p v (u : Int)) w)) = n₁.map (fun w => -(p w)) := by
          apply List.map_congr_left
          intro w hw
          have hwv : w ≠ v := fun hc => hvn₁ (hc ▸ hw)
          rw [fupd_ne _ _ _ hwv]
        rw [hcg, List.map_cons, List.sum_cons]
        ring
    · have hbody : tdBody u (p, out, s) v = (p, out, s) := by
        rw [tdBody, if_neg hv]
      rcases ih p out s with ⟨n₁, hout, hnd, hmem, hclaim, hkeep, hsum⟩
      have hrw : tdFold u (v :: t) (p, out, s) = tdFold u t (p, out, s) := by
        rw [tdFold_cons, hbody]
      refine ⟨n₁, by rw [hrw]; exact hout, hnd, ?_, ?_, ?_, ?_⟩
      · intro w
        rw [hmem w]
        constructor
        · intro ⟨hwt, hwp⟩; exact ⟨List.mem_cons_of_mem _ hwt, hwp⟩
        · intro ⟨hwl, hwp⟩
          rcases List.mem_cons.mp hwl with rfl | hwt
          · omega
          · exact ⟨hwt, hwp⟩
      · intro w hw; rw [hrw]; exact hclaim w hw
      · intro w hw; rw [hrw]; exact hkeep w hw
      · rw [hrw]; exact hsum

theorem tdRun_cons (g : Graph) (u : Nat) (q : List Nat) (st : (Nat → Int) × List Nat × Int) :
    tdRun g (u :: q) st = tdRun g q (tdVisit g u st) := rfl

theorem tdRun_spec (g : Graph) :
    ∀ (q : List Nat) (p : Nat → Int) (out : List Nat) (s : Int),
    ∃ newly : List Nat,
      (tdRun g q (p, out, s)).2.1 = out ++ newly ∧
      newly.Nodup ∧
      (∀ v, v ∈ newly ↔ (p v < 0 ∧ ∃ u ∈ q, v ∈ g.adj u)) ∧
      (∀ v, v ∈ newly → ∃ u ∈ q, v ∈ g.adj u ∧ (tdRun g q (p, out, s)).1 v = (u : Int)) ∧
      (∀ v, v ∉ newly → (tdRun g q (p, out, s)).1 v = p v) ∧
      (tdRun g q (p, out, s)).2.2 = s + (newly.map (fun v => -(p v))).sum := by
  intro q
  induction q with
  | nil =>
    intro p out s
    exact ⟨[], by simp [tdRun], List.nodup_nil, by simp, by simp, fun _ _ => rfl, by simp [tdRun]⟩
  | cons u q' ih =>
    intro p out s
    rcases tdFold_spec u (g.adj u) p out s with ⟨n₁, hout₁, hnd₁, hmem₁, hclaim₁, hkeep₁, hsum₁⟩
    rcases ih (tdFold u (g.adj u) (p, out, s)).1 (tdFold u (g.adj u) (p, out, s)).2.1 (tdFold u (g.adj u) (p, out, s)).2.2 with
      ⟨n₂, hout₂, hnd₂, hmem₂, hclaim₂, hkeep₂, hsum₂⟩
    have hrun : tdRun g (u :: q') (p, out, s) =
        tdRun g q' ((tdFold u (g.adj u) (p, out, s)).1, (tdFold u (g.adj u) (p, out, s)).2.1,
          (tdFold u (g.adj u) (p, out, s)).2.2) := rfl
    have hp₁neg : ∀ w, (tdFold u (g.adj u) (p, out, s)).1 w < 0 ↔ (p w < 0 ∧ w ∉ n₁) := by
      intro w
      constructor
      · intro hw
        by_cases hwn : w ∈ n₁
        · rw [hclaim₁ w hwn] at hw
          omega
        · rw [hkeep₁ w hwn] at hw
          exact ⟨hw, hwn⟩
      · intro ⟨hwp, hwn⟩
        rw [hkeep₁ w hwn]
        exact hwp
    have hdisj : ∀ w ∈ n₂, w ∉ n₁ := by
      intro w hw
      exact ((hp₁neg w).mp ((hmem₂ w).mp hw).1).2
    refine ⟨n₁ ++ n₂, ?_, ?_, ?_, ?_, ?_, ?_⟩
    · rw [hrun, hout₂, hout₁, List.append_assoc]
    · exact hnd₁.append hnd₂ (fun w hw1 hw2 => (hdisj w hw2) hw1)
    · intro w
      rw [List.mem_append, hmem₁ w, hmem₂ w, hp₁neg w]
      constructor
      · intro hcase
        rcases hcase with ⟨hadj, hwp⟩ | ⟨⟨hwp, _⟩, u', hu', hadj'⟩
        · exact ⟨hwp, u, List.mem_cons_self _ _, hadj⟩
        · exact ⟨hwp, u', List.mem_cons_of_mem _ hu', hadj'⟩
      · intro ⟨hwp, u', hu', hadj'⟩
        by_cases hwn : w ∈ n₁
        · left; exact (hmem₁ w).mp hwn
        · right
          refine ⟨⟨hwp, hwn⟩, ?_⟩
          rcases List.mem_cons.mp hu' with rfl | hq'
          · exact absurd ((hmem₁ w).mpr ⟨hadj', hwp⟩) hwn
          · exact ⟨u', hq', hadj'⟩
    · intro w hw
      rcases List.mem_append.mp hw with hw₁ | hw₂
      · have hwn₂ : w ∉ n₂ := fun hc => (hdisj w hc) hw₁
        refine ⟨u, List.mem_cons_self _ _, ((hmem₁ w).mp hw₁).1, ?_⟩
        rw [hrun, hkeep₂ w hwn₂]
        exact hclaim₁ w hw₁
      · rcases hclaim₂ w hw₂ with ⟨u', hu', hadj', hval⟩
        refine ⟨u', List.mem_cons_of_mem _ hu', hadj', ?_⟩
        rw [hrun]
        exact hval
    · intro w hw
      have hwn₁ : w ∉ n₁ := fun hc => hw (List.mem_append.mpr (Or.inl hc))
      have hwn₂ : w ∉ n₂ := fun hc => hw (List.mem_append.mpr (Or.inr hc))
      rw [hrun, hkeep₂ w hwn₂, hkeep₁ w hwn₁]
    · have hcg : n₂.map (fun w => -((tdFold u (g.adj u) (p, out, s)).1 w)) = n₂.map (fun w => -(p w)) := by
        apply List.map_congr_left
        intro w hw
        rw [hkeep₁ w (hdisj w hw)]
      rw [hrun, hsum₂, hcg, hsum₁, List.map_append, List.sum_append]
      ring

theorem tdstep_spec (g : Graph) (p : Nat → Int) (queue : List Nat) :
    (TDStep g p queue).2.1.Nodup ∧
    (∀ v, v ∈ (TDStep g p queue).2.1 ↔ (p v < 0 ∧ ∃ u ∈ queue, v ∈ g.adj u)) ∧
    (∀ v, v ∈ (TDStep g p queue).2.1 →
      ∃ u ∈ queue, v ∈ g.adj u ∧ (TDStep g p queue).1 v = (u : Int)) ∧
    (∀ v, v ∉ (TDStep g p queue).2.1 → (TDStep g p queue).1 v = p v) ∧
    (TDStep g p queue).2.2 = ((TDStep g p queue).2.1.map (fun v => -(p v))).sum := by
  rcases tdRun_spec g queue p [] 0 with ⟨newly, hout, hnd, hmem, hclaim, hkeep, hsum⟩
  have hout' : (TDStep g p queue).2.1 = newly := by
    rw [TDStep, hout, List.nil_append]
  rw [TDStep] at *
  rw [hout']
  exact ⟨hnd, hmem, hclaim, hkeep, by rw [hsum]; ring⟩

/-! ### Properties of the independent BFS depth -/

theorem reachB_succ_of (g : Graph) (s : Nat) {k v : Nat} (h : reachB g s k v = true) :
    reachB g s (k+1) v = true := by
  show nbrStep g (reachB g s k) v = true
  simp [nbrStep, h]

theorem reachB_mono (g : Graph) (s : Nat) {j k v : Nat} (hjk : j ≤ k)
    (h : reachB g s j v = true) : reachB g s k v = true := by
  induction hjk with
  | refl => exact h
  | step _ ih => exact reachB_succ_of g s ih

theorem reachB_zero (g : Graph) (s v : Nat) : reachB g s 0 v = true ↔ v = s := by
  simp [reachB]

theorem distIs_exists (g : Graph) (s : Nat) :
    ∀ (k u : Nat), reachB g s k u = true → ∃ e, e ≤ k ∧ distIs g s u e := by
  intro k
  induction k with
  | zero =>
    intro u h
    exact ⟨0, Nat.le_refl 0, h, fun j hj => absurd hj (Nat.not_lt_zero j)⟩
  | succ k ih =>
    intro u h
    by_cases hk : reachB g s k u = true
    · rcases ih u hk with ⟨e, he, hd⟩
      exact ⟨e, Nat.le_succ_of_le he, hd⟩
    · refine ⟨k+1, Nat.le_refl _, h, ?_⟩
      intro j hj
      rw [← Bool.not_eq_true]
      intro hj'
      exact hk (reachB_mono g s (Nat.lt_succ_iff.mp hj) hj')

theorem distIs_unique (g : Graph) (s : Nat) {u a b : Nat}
    (ha : distIs g s u a) (hb : distIs g s u b) : a = b := by
  rcases Nat.lt_trichotomy a b with h | h | h
  · exact absurd ha.1 (by rw [hb.2 a h]; exact Bool.false_ne_true)
  · exact h
  · exact absurd hb.1 (by rw [ha.2 b h]; exact Bool.false_ne_true)

theorem distIs_src (g : Graph) (s : Nat) : distIs g s s 0 :=
  ⟨by simp [reachB], fun j hj => absurd hj (Nat.not_lt_zero j)⟩

theorem distIs_zero (g : Graph) (s u : Nat) (h : distIs g s u 0) : u = s :=
  (reachB_zero g s u).mp h.1

theorem reach_step (g : Graph) (s : Nat) {k u v : Nat} (hu : u < g.n)
    (hk : reachB g s k u = true) (hv : v ∈ g.adj u) : reachB g s (k+1) v = true := by
  show nbrStep g (reachB g s k) v = true
  have : (List.range g.n).any (fun w => reachB g s k w && decide (v ∈ g.adj w)) = true := by
    rw [List.any_eq_true]
    exact ⟨u, List.mem_range.mpr hu, by simp [hk, hv]⟩
  simp [nbrStep, this]

theorem level_succ (g : Graph) (s : Nat) {v e : Nat} (h : distIs g s v (e+1)) :
    ∃ u, u < g.n ∧ distIs g s u e ∧ v ∈ g.adj u := by
  have h1 : (reachB g s e v || (List.range g.n).any
      (fun w => reachB g s e w && decide (v ∈ g.adj w))) = true := h.1
  rcases Bool.or_eq_true _ _ |>.mp h1 with hv | hany
  · exact absurd hv (by rw [h.2 e (Nat.lt_succ_self e)]; exact Bool.false_ne_true)
  · rcases List.any_eq_true.mp hany with ⟨u, hmem, hpred⟩
    rcases Bool.and_eq_true _ _ |>.mp hpred with ⟨hru, hadj'⟩
    have hadj : v ∈ g.adj u := of_decide_eq_true hadj'
    have hun : u < g.n := List.mem_range.mp hmem
    rcases distIs_exists g s e u hru with ⟨e', he', hd'⟩
    have he'e : e' = e := by
      rcases Nat.lt_or_ge e' e with hlt | hge
      · exfalso
        have hv' : reachB g s e v = true :=
          reachB_mono g s (Nat.succ_le_of_lt hlt) (reach_step g s hun hd'.1 hadj)
        rw [h.2 e (Nat.lt_succ_self e)] at hv'
        exact Bool.false_ne_true hv'
      · omega
    subst he'e
    exact ⟨u, hun, hd', hadj⟩

theorem wf_adj {g : Graph} (hwf : g.WF) {u v : Nat} (hu : u < g.n) (hv : v ∈ g.adj u) :
    v < g.n :=
  hwf u (List.mem_range.mpr hu) v hv

theorem symm_adj {g : Graph} (hsym : g.Symm) {u v : Nat} (hu : u < g.n) (hv : v ∈ g.adj u) :
    u ∈ g.adj v :=
  hsym u (List.mem_range.mpr hu) v hv

theorem reachB_in_range {g : Graph} (hwf : g.WF) {s : Nat} (hs : s < g.n) :
    ∀ (k u : Nat), reachB g s k u = true → u < g.n := by
  intro k
  induction k with
  | zero =>
    intro u h
    rw [reachB_zero] at h
    exact h ▸ hs
  | succ k ih =>
    intro u h
    have h1 : (reachB g s k u || (List.range g.n).any
        (fun w => reachB g s k w && decide (u ∈ g.adj w))) = true := h
    rcases Bool.or_eq_true _ _ |>.mp h1 with hu | hany
    · exact ih u hu
    · rcases List.any_eq_true.mp hany with ⟨w, hmem, hpred⟩
      rcases Bool.and_eq_true _ _ |>.mp hpred with ⟨_, hadj'⟩
      exact wf_adj hwf (List.mem_range.mp hmem) (of_decide_eq_true hadj')

theorem levels_above_empty (g : Graph) (s : Nat) {d : Nat}
    (h : ∀ u, u < g.n → ¬ distIs g s u d) :
    ∀ e, d ≤ e → ∀ u, u < g.n → ¬ distIs g s u e := by
  intro e hde
  induction e, hde using Nat.le_induction with
  | base => exact h
  | succ e _ ih =>
    intro u _ hu
    rcases level_succ g s hu with ⟨w, hwn, hwd, _⟩
    exact ih w hwn hwd

theorem reachable_dist (g : Graph) (s u : Nat) (h : Reachable g s u) :
    ∃ e, distIs g s u e := by
  rcases h with ⟨k, hk⟩
  rcases distIs_exists g s k u hk with ⟨e, _, hd⟩
  exact ⟨e, hd⟩

/-! ### The bottom-up round preserves the invariant and advances one level -/

theorem bu_claim_level {g : Graph} {s : Nat} (hsym : g.Symm)
    {d : Nat} {p : Nat → Int} {front : Nat → Bool}
    (hp : PInv g s d p) (hf : BFront g s d front)
    {u v : Nat} (hun : u < g.n) (hneg : p u < 0)
    (hfind : (g.adj u).find? front = some v) :
    distIs g s u (d+1) ∧ distIs g s v d ∧ v < g.n := by
  have hfv : front v = true := List.find?_some hfind
  have hvadj : v ∈ g.adj u := List.mem_of_find?_eq_some hfind
  rcases hf.1 v hfv with ⟨hvn, e, he, hdv⟩
  have huadj : u ∈ g.adj v := symm_adj hsym hun hvadj
  have hru : reachB g s (e+1) u = true := reach_step g s hvn hdv.1 huadj
  rcases distIs_exists g s (e+1) u hru with ⟨du, hdu, hddu⟩
  have hnotle : ¬ ∃ e', e' ≤ d ∧ distIs g s u e' := by
    intro hex
    have := (hp.visited_iff u hun).mpr hex
    omega
  have hdud : d < du := by
    by_contra hc
    exact hnotle ⟨du, by omega, hddu⟩
  have hdueq : du = d + 1 := by omega
  have heeq : e = d := by omega
  subst hdueq heeq
  exact ⟨hddu, hdv, hvn⟩

theorem bu_complete {g : Graph} {s : Nat} (hsym : g.Symm)
    {d : Nat} {p : Nat → Int} {front : Nat → Bool}
    (hp : PInv g s d p) (hf : BFront g s d front)
    {u : Nat} (hun : u < g.n) (hd1 : distIs g s u (d+1)) :
    p u < 0 ∧ ((g.adj u).find? front).isSome = true := by
  have hneg : p u < 0 := by
    by_contra hc
    rcases (hp.visited_iff u hun).mp (by omega) with ⟨e, he, hde⟩
    have := distIs_unique g s hde hd1
    omega
  refine ⟨hneg, ?_⟩
  rcases level_succ g s hd1 with ⟨w, hwn, hwd, huadj⟩
  have hwadj : w ∈ g.adj u := symm_adj hsym hwn huadj
  have hfw : front w = true := hf.2 w hwn hwd
  exact List.find?_isSome.mpr ⟨w, hwadj, hfw⟩

theorem bu_round {g : Graph} {s : Nat} (hsym : g.Symm)
    {d : Nat} {p : Nat → Int} {front : Nat → Bool}
    (hp : PInv g s d p) (hf : BFront g s d front) :
    PInv g s (d+1) (BUStep g p front).1 ∧
    (∀ v, (BUStep g p front).2.1 v = true ↔ (v < g.n ∧ distIs g s v (d+1))) := by
  constructor
  · constructor
    · -- visited_iff at level d+1
      intro u hun
      constructor
      · intro hpos
        by_cases hneg : p u < 0
        · rcases hfind : (g.adj u).find? front with _ | v
          · rcases bustep_keep g p front u (Or.inl hfind) with ⟨hk, _⟩
            rw [hk] at hpos
            omega
          · rcases bu_claim_level hsym hp hf hun hneg hfind with ⟨hd1, _, _⟩
            exact ⟨d+1, Nat.le_refl _, hd1⟩
        · rcases (hp.visited_iff u hun).mp (by omega) with ⟨e, he, hde⟩
          exact ⟨e, Nat.le_succ_of_le he, hde⟩
      · intro ⟨e, he, hde⟩
        rcases Nat.lt_succ_iff_lt_or_eq.mp (Nat.lt_succ_of_le he) with hlt | heq
        · have hpos : 0 ≤ p u :=
            (hp.visited_iff u hun).mpr ⟨e, Nat.lt_succ_iff.mp hlt, hde⟩
          rw [(bustep_keep g p front u (Or.inr hpos)).1]
          exact hpos
        · subst heq
          rcases bu_complete hsym hp hf hun hde with ⟨hneg, hsome⟩
          rcases Option.isSome_iff_exists.mp hsome with ⟨v, hfind⟩
          rw [(bustep_claim g p front u v hun hneg hfind).1]
          exact Int.natCast_nonneg v
    · -- parentEdge at level d+1
      intro u hun hus hpos
      by_cases hneg : p u < 0
      · rcases hfind : (g.adj u).find? front with _ | v
        · rcases bustep_keep g p front u (Or.inl hfind) with ⟨hk, _⟩
          rw [hk] at hpos
          omega
        · rcases bu_claim_level hsym hp hf hun hneg hfind with ⟨hd1, hdv, hvn⟩
          have hvadj : v ∈ g.adj u := List.mem_of_find?_eq_some hfind
          exact ⟨v, d, (bustep_claim g p front u v hun hneg hfind).1, hvn,
            symm_adj hsym hun hvadj, hdv, hd1⟩
      · have hpos' : 0 ≤ p u := by omega
        rcases hp.parentEdge u hun hus hpos' with ⟨v, e, hval, hvn, hadj, hdv, hdu⟩
        exact ⟨v, e, (bustep_keep g p front u (Or.inr hpos')).1.trans hval, hvn, hadj, hdv, hdu⟩
    · -- negInit
      intro u hun hneg'
      by_cases hneg : p u < 0
      · rcases hfind : (g.adj u).find? front with _ | v
        · rw [(bustep_keep g p front u (Or.inl hfind)).1]
          exact hp.negInit u hun hneg
        · have := (bustep_claim g p front u v hun hneg hfind).1
          rw [this] at hneg'
          have h0 : (0 : Int) ≤ (v : Int) := Int.natCast_nonneg v
          omega
      · have hpos : 0 ≤ p u := by omega
        rw [(bustep_keep g p front u (Or.inr hpos)).1] at hneg'
        omega
    · -- srcSelf
      have hpos : 0 ≤ p s := by rw [hp.srcSelf]; exact Int.natCast_nonneg s
      rw [(bustep_keep g p front s (Or.inr hpos)).1]
      exact hp.srcSelf
  · -- the output bitmap holds exactly the new level
    intro u
    constructor
    · intro hbit
      by_cases hun : u < g.n
      · by_cases hneg : p u < 0
        · rcases hfind : (g.adj u).find? front with _ | v
          · rw [(bustep_keep g p front u (Or.inl hfind)).2] at hbit
            cases hbit
          · exact ⟨hun, (bu_claim_level hsym hp hf hun hneg hfind).1⟩
        · rw [(bustep_keep g p front u (Or.inr (by omega))).2] at hbit
          cases hbit
      · rw [(bustep_off g p front u hun).2] at hbit
        cases hbit
    · intro ⟨hun, hd1⟩
      rcases bu_complete hsym hp hf hun hd1 with ⟨hneg, hsome⟩
      rcases Option.isSome_iff_exists.mp hsome with ⟨v, hfind⟩
      exact (bustep_claim g p front u v hun hneg hfind).2

theorem buLoop_succ (g : Graph) (beta : Int) (fuel : Nat) (p : Nat → Int)
    (front : Nat → Bool) (aw : Int) :
    buLoop g beta (fuel+1) p front aw =
      if (BUStep g p front).2.2 ≥ aw ∨ (BUStep g p front).2.2 > Int.tdiv (g.n : Int) beta then
        buLoop g beta fuel (BUStep g p front).1 (BUStep g p front).2.1 (BUStep g p front).2.2
      else some ((BUStep g p front).1, (BUStep g p front).2.1) := rfl

theorem exact_bitmap_BFront (g : Graph) (s : Nat) (d : Nat) (bm : Nat → Bool)
    (hex : ∀ v, bm v = true ↔ (v < g.n ∧ distIs g s v d)) : BFront g s d bm := by
  constructor
  · intro v hv
    rcases (hex v).mp hv with ⟨hvn, hd⟩
    exact ⟨hvn, d, Nat.le_refl d, hd⟩
  · intro v hvn hd
    exact (hex v).mpr ⟨hvn, hd⟩

theorem buLoop_inv {g : Graph} {s : Nat} (hsym : g.Symm) (beta : Int) :
    ∀ (fuel : Nat) (p : Nat → Int) (front : Nat → Bool) (aw : Int) (d : Nat)
      (r : (Nat → Int) × (Nat → Bool)),
      PInv g s d p → BFront g s d front →
      buLoop g beta fuel p front aw = some r →
      ∃ e, d ≤ e ∧ PInv g s (e+1) r.1 ∧
        (∀ v, r.2 v = true ↔ (v < g.n ∧ distIs g s v (e+1))) := by
  intro fuel
  induction fuel with
  | zero => intro p front aw d r _ _ h; cases h
  | succ fuel ih =>
    intro p front aw d r hp hf h
    rw [buLoop_succ] at h
    rcases bu_round hsym hp hf with ⟨hp', hex'⟩
    by_cases hcond : (BUStep g p front).2.2 ≥ aw ∨
        (BUStep g p front).2.2 > Int.tdiv (g.n : Int) beta
    · rw [if_pos hcond] at h
      rcases ih (BUStep g p front).1 (BUStep g p front).2.1 (BUStep g p front).2.2 (d+1) r
        hp' (exact_bitmap_BFront g s (d+1) _ hex') h with ⟨e, he, hpe, hexe⟩
      exact ⟨e, by omega, hpe, hexe⟩
    · rw [if_neg hcond] at h
      rcases Option.some.injEq _ _ ▸ h with rfl
      exact ⟨d, Nat.le_refl d, hp', hex'⟩

/-! ### The top-down step preserves the invariant and advances one level -/

theorem initParent_neg (g : Graph) (u : Nat) : InitParent g u < 0 := by
  rw [InitParent]
  split
  · rename_i hdeg
    have h1 : 0 < g.outDegree u := Nat.pos_of_ne_zero hdeg
    have h2 : (0 : Int) < (g.outDegree u : Int) := by exact_mod_cast h1
    omega
  · omega

theorem td_out_level {g : Graph} {s : Nat} (hwf : g.WF)
    {d : Nat} {p : Nat → Int} {queue : List Nat} {front : Nat → Bool}
    (hinv : LoopInv g s d p queue front) :
    ∀ v, v ∈ (TDStep g p queue).2.1 ↔ (v < g.n ∧ distIs g s v (d+1)) := by
  rcases tdstep_spec g p queue with ⟨_, hmem, _, _, _⟩
  intro v
  constructor
  · intro hv
    rcases (hmem v).mp hv with ⟨hneg, u, huq, hadj⟩
    rcases (hinv.queueIff u).mp huq with ⟨hun, hdu⟩
    have hvn : v < g.n := wf_adj hwf hun hadj
    have hrv : reachB g s (d+1) v = true := reach_step g s hun hdu.1 hadj
    rcases distIs_exists g s (d+1) v hrv with ⟨e, he, hde⟩
    have hnot : ¬ ∃ e', e' ≤ d ∧ distIs g s v e' := by
      intro hex
      have := (hinv.pinv.visited_iff v hvn).mpr hex
      omega
    have hed : e = d + 1 := by
      by_contra hc
      exact hnot ⟨e, by omega, hde⟩
    subst hed
    exact ⟨hvn, hde⟩
  · intro ⟨hvn, hdv⟩
    rcases level_succ g s hdv with ⟨w, hwn, hwd, hadj⟩
    have hneg : p v < 0 := by
      by_contra hc
      rcases (hinv.pinv.visited_iff v hvn).mp (by omega) with ⟨e, he, hde⟩
      have := distIs_unique g s hde hdv
      omega
    exact (hmem v).mpr ⟨hneg, w, (hinv.queueIff w).mpr ⟨hwn, hwd⟩, hadj⟩

theorem td_round {g : Graph} {s : Nat} (hwf : g.WF)
    {d : Nat} {p : Nat → Int} {queue : List Nat} {front : Nat → Bool}
    (hinv : LoopInv g s d p queue front) :
    LoopInv g s (d+1) (TDStep g p queue).1 (TDStep g p queue).2.1 front := by
  rcases tdstep_spec g p queue with ⟨hnd, hmem, hclaim, hkeep, hsum⟩
  have hlevel := td_out_level hwf hinv
  have hmemneg : ∀ v, v ∈ (TDStep g p queue).2.1 → p v < 0 := by
    intro v hv
    exact ((hmem v).mp hv).1
  refine ⟨⟨?_, ?_, ?_, ?_⟩, hlevel, ?_⟩
  · -- visited_iff at level d+1
    intro u hun
    constructor
    · intro hpos
      by_cases hu : u ∈ (TDStep g p queue).2.1
      · exact ⟨d+1, Nat.le_refl _, ((hlevel u).mp hu).2⟩
      · rw [hkeep u hu] at hpos
        rcases (hinv.pinv.visited_iff u hun).mp hpos with ⟨e, he, hde⟩
        exact ⟨e, Nat.le_succ_of_le he, hde⟩
    · intro ⟨e, he, hde⟩
      rcases Nat.lt_succ_iff_lt_or_eq.mp (Nat.lt_succ_of_le he) with hlt | heq
      · have hpos : 0 ≤ p u :=
          (hinv.pinv.visited_iff u hun).mpr ⟨e, Nat.lt_succ_iff.mp hlt, hde⟩
        have hu : u ∉ (TDStep g p queue).2.1 := by
          intro hc
          have := hmemneg u hc
          omega
        rw [hkeep u hu]
        exact hpos
      · subst heq
        have hu : u ∈ (TDStep g p queue).2.1 := (hlevel u).mpr ⟨hun, hde⟩
        rcases hclaim u hu with ⟨w, _, _, hval⟩
        rw [hval]
        exact Int.natCast_nonneg w
  · -- parentEdge at level d+1
    intro u hun hus hpos
    by_cases hu : u ∈ (TDStep g p queue).2.1
    · rcases hclaim u hu with ⟨w, hwq, hadj, hval⟩
      rcases (hinv.queueIff w).mp hwq with ⟨hwn, hwd⟩
      exact ⟨w, d, hval, hwn, hadj, hwd, ((hlevel u).mp hu).2⟩
    · rw [hkeep u hu] at hpos ⊢
      rcases hinv.pinv.parentEdge u hun hus hpos with ⟨v, e, hval, hvn, hadj, hdv, hdu⟩
      exact ⟨v, e, hval, hvn, hadj, hdv, hdu⟩
  · -- negInit
    intro u hun hneg
    by_cases hu : u ∈ (TDStep g p queue).2.1
    · rcases hclaim u hu with ⟨w, _, _, hval⟩
      rw [hval] at hneg
      have h0 : (0 : Int) ≤ (w : Int) := Int.natCast_nonneg w
      omega
    · rw [hkeep u hu] at hneg ⊢
      exact hinv.pinv.negInit u hun hneg
  · -- srcSelf
    have hs : s ∉ (TDStep g p queue).2.1 := by
      intro hc
      have := hmemneg s hc
      rw [hinv.pinv.srcSelf] at this
      have h0 : (0 : Int) ≤ (s : Int) := Int.natCast_nonneg s
      omega
    rw [hkeep s hs]
    exact hinv.pinv.srcSelf
  · -- frontVis
    intro v hv
    rcases hinv.frontVis v hv with ⟨hvn, e, he, hde⟩
    exact ⟨hvn, e, Nat.le_succ_of_le he, hde⟩

/-! ### The controller loop maintains the invariant up to termination -/

theorem qtb_BFront {g : Graph} {s : Nat} {d : Nat} {p : Nat → Int}
    {queue : List Nat} {front : Nat → Bool}
    (hinv : LoopInv g s d p queue front) :
    BFront g s d (QueueToBitmap queue front) := by
  constructor
  · intro v hv
    rcases (qtb_get queue front v).mp hv with hfr | hq
    · exact hinv.frontVis v hfr
    · rcases (hinv.queueIff v).mp hq with ⟨hvn, hdv⟩
      exact ⟨hvn, d, Nat.le_refl d, hdv⟩
  · intro v hvn hdv
    exact (qtb_get queue front v).mpr (Or.inr ((hinv.queueIff v).mpr ⟨hvn, hdv⟩))

theorem bu_block {g : Graph} {s : Nat} (hsym : g.Symm) (beta : Int)
    {d : Nat} {p : Nat → Int} {queue : List Nat} {front : Nat → Bool}
    (hinv : LoopInv g s d p queue front)
    {fuel : Nat} {aw : Int} {r : (Nat → Int) × (Nat → Bool)}
    (h : buLoop g beta fuel p (QueueToBitmap queue front) aw = some r) :
    ∃ e, LoopInv g s (e+1) r.1 (BitmapToQueue g r.2) r.2 := by
  rcases buLoop_inv hsym beta fuel p (QueueToBitmap queue front) aw d r
    hinv.pinv (qtb_BFront hinv) h with ⟨e, _, hp', hex⟩
  refine ⟨e, hp', ?_, ?_⟩
  · intro u
    rw [btq_mem]
    constructor
    · intro ⟨hun, hbit⟩
      exact (hex u).mp hbit
    · intro ⟨hun, hdu⟩
      exact ⟨hun, (hex u).mpr ⟨hun, hdu⟩⟩
  · intro v hv
    rcases (hex v).mp hv with ⟨hvn, hdv⟩
    exact ⟨hvn, e+1, Nat.le_refl _, hdv⟩

theorem dobfsLoop_succ (g : Graph) (alpha beta : Int) (fuel : Nat) (st : DState) :
    dobfsLoop g alpha beta (fuel+1) st =
      if st.queue = [] then some st.parent
      else if st.scout > Int.tdiv st.edgesToCheck alpha then
        match buLoop g beta (g.n + 2) st.parent (QueueToBitmap st.queue st.front)
            (st.queue.length : Int) with
        | none => none
        | some pf =>
          dobfsLoop g alpha beta fuel ⟨pf.1, BitmapToQueue g pf.2, pf.2, st.edgesToCheck, 1⟩
      else
        dobfsLoop g alpha beta fuel
          ⟨(TDStep g st.parent st.queue).1, (TDStep g st.parent st.queue).2.1, st.front,
            st.edgesToCheck - st.scout, (TDStep g st.parent st.queue).2.2⟩ := rfl

theorem loopInv_final {g : Graph} {s : Nat} {d : Nat} {p : Nat → Int} {front : Nat → Bool}
    (hinv : LoopInv g s d p [] front) : ForestSpec g s p := by
  have hempty : ∀ u, u < g.n → ¬ distIs g s u d := by
    intro u hun hdu
    have : u ∈ ([] : List Nat) := (hinv.queueIff u).mpr ⟨hun, hdu⟩
    cases this
  have hlt : ∀ u, u < g.n → Reachable g s u → ∃ e, e < d ∧ distIs g s u e := by
    intro u hun hr
    rcases reachable_dist g s u hr with ⟨e, hde⟩
    rcases Nat.lt_or_ge e d with hlt | hge
    · exact ⟨e, hlt, hde⟩
    · exact absurd hde (levels_above_empty g s hempty e hge u hun)
  refine ⟨hinv.pinv.srcSelf, ?_, ?_, ?_⟩
  · intro u hun hr
    rcases hlt u hun hr with ⟨e, he, hde⟩
    exact (hinv.pinv.visited_iff u hun).mpr ⟨e, by omega, hde⟩
  · intro u hun hr hus
    have hpos : 0 ≤ p u := by
      rcases hlt u hun hr with ⟨e, he, hde⟩
      exact (hinv.pinv.visited_iff u hun).mpr ⟨e, by omega, hde⟩
    exact hinv.pinv.parentEdge u hun hus hpos
  · intro u hun hr
    have hneg : p u < 0 := by
      by_contra hc
      rcases (hinv.pinv.visited_iff u hun).mp (by omega) with ⟨e, _, hde⟩
      exact hr ⟨e, hde.1⟩
    exact hinv.pinv.negInit u hun hneg

theorem dobfsLoop_correct {g : Graph} {s : Nat} (hwf : g.WF) (hsym : g.Symm)
    (alpha beta : Int) :
    ∀ (fuel : Nat) (st : DState) (d : Nat) (pfin : Nat → Int),
      LoopInv g s d st.parent st.queue st.front →
      dobfsLoop g alpha beta fuel st = some pfin →
      ForestSpec g s pfin := by
  intro fuel
  induction fuel with
  | zero => intro st d pfin _ h; cases h
  | succ fuel ih =>
    intro st d pfin hinv h
    rw [dobfsLoop_succ] at h
    by_cases hq : st.queue = []
    · rw [if_pos hq] at h
      rcases Option.some.injEq _ _ ▸ h with rfl
      rw [hq] at hinv
      exact loopInv_final hinv
    · rw [if_neg hq] at h
      by_cases hcond : st.scout > Int.tdiv st.edgesToCheck alpha
      · rw [if_pos hcond] at h
        rcases hbu : buLoop g beta (g.n + 2) st.parent (QueueToBitmap st.queue st.front)
            (st.queue.length : Int) with _ | r
        · rw [hbu] at h
          cases h
        · rw [hbu] at h
          rcases bu_block hsym beta hinv hbu with ⟨e, hinv'⟩
          exact ih ⟨r.1, BitmapToQueue g r.2, r.2, st.edgesToCheck, 1⟩ (e+1) pfin hinv' h
      · rw [if_neg hcond] at h
        exact ih _ (d+1) pfin (td_round hwf hinv) h

theorem initial_LoopInv {g : Graph} {s : Nat} (hs : s < g.n) :
    LoopInv g s 0 (fupd (InitParent g) s (s : Int)) [s] (fun _ => false) := by
  refine ⟨⟨?_, ?_, ?_, ?_⟩, ?_, ?_⟩
  · intro u hun
    constructor
    · intro hpos
      by_cases hu : u = s
      · subst hu
        exact ⟨0, Nat.le_refl 0, distIs_src g u⟩
      · rw [fupd_ne _ _ _ hu] at hpos
        have := initParent_neg g u
        omega
    · intro ⟨e, he, hde⟩
      have he0 : e = 0 := Nat.le_zero.mp he
      subst he0
      have : u = s := distIs_zero g s u hde
      subst this
      rw [fupd_self]
      exact Int.natCast_nonneg u
  · intro u hun hus hpos
    rw [fupd_ne _ _ _ hus] at hpos
    have := initParent_neg g u
    omega
  · intro u hun hneg
    by_cases hu : u = s
    · subst hu
      rw [fupd_self] at hneg
      have h0 : (0 : Int) ≤ (u : Int) := Int.natCast_nonneg u
      omega
    · rw [fupd_ne _ _ _ hu]
  · rw [fupd_self]
  · intro u
    constructor
    · intro hu
      rcases List.mem_singleton.mp hu with rfl
      exact ⟨hs, distIs_src g u⟩
    · intro ⟨hun, hdu⟩
      rw [distIs_zero g s u hdu]
      exact List.mem_singleton.mpr rfl
  · intro v hv
    cases hv

theorem dobfs_forest {g : Graph} {s : Nat} {alpha beta : Int} (hwf : g.WF) (hsym : g.Symm)
    (hs : s < g.n) {p : Nat → Int} (h : dobfs g s alpha beta = some p) :
    ForestSpec g s p :=
  dobfsLoop_correct hwf hsym alpha beta (g.n + 2)
    ⟨fupd (InitParent g) s (s : Int), [s], (fun _ => false),
      (g.numEdgesDirected : Int), (g.outDegree s : Int)⟩ 0 p (initial_LoopInv hs) h

/-! ### Monotonicity: visited entries are frozen -/

theorem bustep_mono (g : Graph) (p : Nat → Int) (front : Nat → Bool) (u : Nat)
    (hpos : 0 ≤ p u) : (BUStep g p front).1 u = p u :=
  (bustep_keep g p front u (Or.inr hpos)).1

theorem tdstep_mono (g : Graph) (p : Nat → Int) (queue : List Nat) (v : Nat)
    (hpos : 0 ≤ p v) : (TDStep g p queue).1 v = p v := by
  rcases tdstep_spec g p queue with ⟨_, hmem, _, hkeep, _⟩
  apply hkeep
  intro hc
  have := ((hmem v).mp hc).1
  omega

theorem bustep_bit (g : Graph) (p : Nat → Int) (front : Nat → Bool) (v : Nat)
    (hbit : (BUStep g p front).2.1 v = true) :
    v < g.n ∧ p v < 0 ∧ 0 ≤ (BUStep g p front).1 v := by
  by_cases hvn : v < g.n
  · by_cases hneg : p v < 0
    · rcases hfind : (g.adj v).find? front with _ | w
      · rw [(bustep_keep g p front v (Or.inl hfind)).2] at hbit
        cases hbit
      · refine ⟨hvn, hneg, ?_⟩
        rw [(bustep_claim g p front v w hvn hneg hfind).1]
        exact Int.natCast_nonneg w
    · rw [(bustep_keep g p front v (Or.inr (by omega))).2] at hbit
      cases hbit
  · rw [(bustep_off g p front v hvn).2] at hbit
    cases hbit

/-! ### Termination: the unvisited count bounds both loops -/

theorem negCount_le (g : Graph) (p : Nat → Int) : negCount g p ≤ g.n := by
  have h := List.countP_le_length (l := List.range g.n) (fun u => decide (p u < 0))
  rw [List.length_range] at h
  exact h

theorem negCount_bustep (g : Graph) (p : Nat → Int) (front : Nat → Bool) :
    negCount g (BUStep g p front).1 + ((BUStep g p front).2.2).toNat = negCount g p := by
  have htoNat : ((BUStep g p front).2.2).toNat =
      (List.range g.n).countP (fun u => decide (p u < 0) && ((g.adj u).find? front).isSome) := by
    rw [bustep_count g p front, Int.toNat_natCast]
  have hcongr : (List.range g.n).countP (fun u => decide ((BUStep g p front).1 u < 0)) =
      (List.range g.n).countP
        (fun u => decide (p u < 0) && !((g.adj u).find? front).isSome) := by
    apply List.countP_congr
    intro u hu
    constructor
    · intro h'
      have hneg' : (BUStep g p front).1 u < 0 := of_decide_eq_true h'
      by_cases hneg : p u < 0
      · rcases hfind : (g.adj u).find? front with _ | w
        · simp [hneg, hfind]
        · have := (bustep_claim g p front u w (List.mem_range.mp hu) hneg hfind).1
          rw [this] at hneg'
          have h0 : (0 : Int) ≤ (w : Int) := Int.natCast_nonneg w
          omega
      · rw [bustep_mono g p front u (by omega)] at hneg'
        omega
    · intro h'
      rcases Bool.and_eq_true _ _ |>.mp h' with ⟨h1, h2⟩
      have hneg : p u < 0 := of_decide_eq_true h1
      have hfind : (g.adj u).find? front = none := by
        rcases hopt : (g.adj u).find? front with _ | w
        · rfl
        · rw [hopt] at h2
          cases h2
      rw [decide_eq_true_eq]
      rw [(bustep_keep g p front u (Or.inl hfind)).1]
      exact hneg
  have hsplit := countP_split (List.range g.n) (fun u => decide (p u < 0))
    (fun u => ((g.adj u).find? front).isSome)
  rw [negCount, negCount, hcongr, htoNat]
  omega

theorem negCount_tdstep (g : Graph) (hwf : g.WF) (p : Nat → Int) (queue : List Nat)
    (hq : ∀ u ∈ queue, u < g.n) :
    negCount g (TDStep g p queue).1 + (TDStep g p queue).2.1.length = negCount g p := by
  rcases tdstep_spec g p queue with ⟨hnd, hmem, hclaim, hkeep, _⟩
  have hsub : ∀ v ∈ (TDStep g p queue).2.1, v ∈ List.range g.n := by
    intro v hv
    rcases (hmem v).mp hv with ⟨_, u, huq, hadj⟩
    exact List.mem_range.mpr (wf_adj hwf (hq u huq) hadj)
  have hcongr : (List.range g.n).countP (fun v => decide ((TDStep g p queue).1 v < 0)) =
      (List.range g.n).countP
        (fun v => decide (p v < 0) && !(decide (v ∈ (TDStep g p queue).2.1))) := by
    apply List.countP_congr
    intro v _
    constructor
    · intro h'
      have hneg' : (TDStep g p queue).1 v < 0 := of_decide_eq_true h'
      by_cases hv : v ∈ (TDStep g p queue).2.1
      · rcases hclaim v hv with ⟨w, _, _, hval⟩
        rw [hval] at hneg'
        have h0 : (0 : Int) ≤ (w : Int) := Int.natCast_nonneg w
        omega
      · rw [hkeep v hv] at hneg'
        simp [hneg', hv]
    · intro h'
      rcases Bool.and_eq_true _ _ |>.mp h' with ⟨h1, h2⟩
      have hneg : p v < 0 := of_decide_eq_true h1
      have hv : v ∉ (TDStep g p queue).2.1 := by
        simp only [Bool.not_eq_true', decide_eq_false_iff_not] at h2
        exact h2
      rw [decide_eq_true_eq, hkeep v hv]
      exact hneg
  have hQcount : (List.range g.n).countP
      (fun v => decide (p v < 0) && decide (v ∈ (TDStep g p queue).2.1)) =
      (TDStep g p queue).2.1.length := by
    have hagree : (List.range g.n).countP
        (fun v => decide (p v < 0) && decide (v ∈ (TDStep g p queue).2.1)) =
        (List.range g.n).countP (fun v => decide (v ∈ (TDStep g p queue).2.1)) := by
      apply List.countP_congr
      intro v _
      constructor
      · intro h
        exact (Bool.and_eq_true _ _ |>.mp h).2
      · intro h
        have hmemv : v ∈ (TDStep g p queue).2.1 := of_decide_eq_true h
        have hneg : p v < 0 := ((hmem v).mp hmemv).1
        simp [hneg, hmemv]
    rw [hagree]
    exact countP_mem_nodup _ _ (List.nodup_range g.n) hnd hsub
  have hsplit := countP_split (List.range g.n) (fun v => decide (p v < 0))
    (fun v => decide (v ∈ (TDStep g p queue).2.1))
  rw [negCount, negCount, hcongr]
  omega

theorem buLoop_some (g : Graph) (beta : Int) (hbeta : 0 < beta) :
    ∀ (fuel : Nat) (p : Nat → Int) (front : Nat → Bool) (aw : Int),
      0 < aw → negCount g p < fuel → (buLoop g beta fuel p front aw).isSome = true := by
  intro fuel
  induction fuel with
  | zero => intro p front aw _ h; omega
  | succ fuel ih =>
    intro p front aw haw hcnt
    rw [buLoop_succ]
    by_cases hcond : (BUStep g p front).2.2 ≥ aw ∨
        (BUStep g p front).2.2 > Int.tdiv (g.n : Int) beta
    · rw [if_pos hcond]
      have hdiv : (0 : Int) ≤ Int.tdiv (g.n : Int) beta :=
        Int.tdiv_nonneg (Int.natCast_nonneg g.n) (by omega)
      have haw' : 0 < (BUStep g p front).2.2 := by
        rcases hcond with h | h <;> omega
      have hacc := negCount_bustep g p front
      have htoNat : 1 ≤ ((BUStep g p front).2.2).toNat := by
        omega
      apply ih
      · exact haw'
      · omega
    · rw [if_neg hcond]
      rfl

theorem buLoop_result (g : Graph) (beta : Int) :
    ∀ (fuel : Nat) (p : Nat → Int) (front : Nat → Bool) (aw : Int)
      (r : (Nat → Int) × (Nat → Bool)),
      buLoop g beta fuel p front aw = some r →
      (∀ u, 0 ≤ p u → r.1 u = p u) ∧
      (∀ v, r.2 v = true → (v < g.n ∧ p v < 0 ∧ 0 ≤ r.1 v)) := by
  intro fuel
  induction fuel with
  | zero => intro p front aw r h; cases h
  | succ fuel ih =>
    intro p front aw r h
    rw [buLoop_succ] at h
    by_cases hcond : (BUStep g p front).2.2 ≥ aw ∨
        (BUStep g p front).2.2 > Int.tdiv (g.n : Int) beta
    · rw [if_pos hcond] at h
      rcases ih (BUStep g p front).1 (BUStep g p front).2.1 (BUStep g p front).2.2 r h with
        ⟨hmono, hbits⟩
      constructor
      · intro u hpos
        rw [hmono u (by rw [bustep_mono g p front u hpos]; exact hpos)]
        exact bustep_mono g p front u hpos
      · intro v hv
        rcases hbits v hv with ⟨hvn, hneg', hpos'⟩
        have hneg : p v < 0 := by
          by_contra hc
          rw [bustep_mono g p front v (by omega)] at hneg'
          omega
        exact ⟨hvn, hneg, hpos'⟩
    · rw [if_neg hcond] at h
      rcases Option.some.injEq _ _ ▸ h with rfl
      constructor
      · intro u hpos
        exact bustep_mono g p front u hpos
      · intro v hv
        exact bustep_bit g p front v hv

theorem dobfsLoop_some (g : Graph) (hwf : g.WF) (alpha beta : Int) (hbeta : 0 < beta) :
    ∀ (fuel : Nat) (st : DState),
      (∀ u ∈ st.queue, u < g.n) →
      (st.queue = [] → 1 ≤ fuel) →
      (st.queue ≠ [] → negCount g st.parent + 2 ≤ fuel) →
      (dobfsLoop g alpha beta fuel st).isSome = true := by
  intro fuel
  induction fuel with
  | zero =>
    intro st _ h1 h2
    by_cases hq : st.queue = []
    · have := h1 hq; omega
    · have := h2 hq; omega
  | succ fuel ih =>
    intro st hqn h1 h2
    rw [dobfsLoop_succ]
    by_cases hq : st.queue = []
    · rw [if_pos hq]
      rfl
    · rw [if_neg hq]
      have hfuel : negCount g st.parent + 2 ≤ fuel + 1 := h2 hq
      by_cases hcond : st.scout > Int.tdiv st.edgesToCheck alpha
      · rw [if_pos hcond]
        have haw : (0 : Int) < (st.queue.length : Int) := by
          have : st.queue.length ≠ 0 := fun hc => hq (List.length_eq_zero.mp hc)
          have h0 : 1 ≤ st.queue.length := by omega
          exact_mod_cast h0
        have hsome := buLoop_some g beta hbeta (g.n + 2) st.parent
          (QueueToBitmap st.queue st.front) (st.queue.length : Int) haw
          (by have := negCount_le g st.parent; omega)
        rcases Option.isSome_iff_exists.mp hsome with ⟨r, hbu⟩
        rw [hbu]
        rcases buLoop_result g beta (g.n + 2) st.parent (QueueToBitmap st.queue st.front)
          (st.queue.length : Int) r hbu with ⟨hmono, hbits⟩
        apply ih
        · intro u hu
          exact ((btq_mem g r.2 u).mp hu).1
        · intro _
          omega
        · intro hne
          rcases List.exists_mem_of_ne_nil _ hne with ⟨v, hv⟩
          rcases (btq_mem g r.2 v).mp hv with ⟨hvn, hbit⟩
          rcases hbits v hbit with ⟨_, hneg, hpos⟩
          have hdec : negCount g r.1 < negCount g st.parent := by
            apply countP_lt_of_flip (List.range g.n)
              (fun u => decide (st.parent u < 0)) (fun u => decide (r.1 u < 0))
              ?_ v (List.mem_range.mpr hvn) (by simp [hneg]) (by simp; omega)
            intro x _ hx
            have hx' : r.1 x < 0 := of_decide_eq_true hx
            rw [decide_eq_true_eq]
            by_contra hc
            rw [hmono x (by omega)] at hx'
            omega
          have : negCount g r.1 + 2 ≤ fuel := by omega
          exact this
      · rw [if_neg hcond]
        rcases tdstep_spec g st.parent st.queue with ⟨hnd, hmem, hclaim, hkeep, _⟩
        have hacc := negCount_tdstep g hwf st.parent st.queue hqn
        apply ih
        · intro v hv
          rcases (hmem v).mp hv with ⟨_, u, huq, hadj⟩
          exact wf_adj hwf (hqn u huq) hadj
        · intro _
          omega
        · intro hne
          have hlen : 1 ≤ (TDStep g st.parent st.queue).2.1.length :=
            List.length_pos.mpr hne
          show negCount g (TDStep g st.parent st.queue).1 + 2 ≤ fuel
          omega

theorem dobfs_some (g : Graph) (s : Nat) (alpha beta : Int) (hwf : g.WF)
    (hs : s < g.n) (hbeta : 0 < beta) : ∃ p, dobfs g s alpha beta = some p := by
  have h := dobfsLoop_some g hwf alpha beta hbeta (g.n + 2)
    ⟨fupd (InitParent g) s (s : Int), [s], (fun _ => false),
      (g.numEdgesDirected : Int), (g.outDegree s : Int)⟩
    (by intro u hu
        rcases List.mem_singleton.mp hu with rfl
        exact hs)
    (by intro hc; cases hc)
    (by intro _
        have := negCount_le g (fupd (InitParent g) s (s : Int))
        show negCount g (fupd (InitParent g) s (s : Int)) + 2 ≤ g.n + 2
        omega)
  exact Option.isSome_iff_exists.mp h

/-! ### The claimed-predecessor invariant and loop-level monotonicity -/

theorem goodParent_td (g : Graph) (s : Nat) (p : Nat → Int) (queue : List Nat)
    (hg : GoodParent g s p) (hq : ∀ u ∈ queue, u < g.n ∧ 0 ≤ p u) :
    GoodParent g s (TDStep g p queue).1 := by
  rcases tdstep_spec g p queue with ⟨_, hmem, hclaim, hkeep, _⟩
  constructor
  · have hs : s ∉ (TDStep g p queue).2.1 := by
      intro hc
      have := ((hmem s).mp hc).1
      rw [hg.1] at this
      have h0 : (0 : Int) ≤ (s : Int) := Int.natCast_nonneg s
      omega
    rw [hkeep s hs]
    exact hg.1
  · intro u hun hus hpos
    by_cases hu : u ∈ (TDStep g p queue).2.1
    · rcases hclaim u hu with ⟨w, hwq, _, hval⟩
      rcases hq w hwq with ⟨hwn, hwp⟩
      exact ⟨w, hval, hwn, by rw [tdstep_mono g p queue w hwp]; exact hwp⟩
    · rw [hkeep u hu] at hpos ⊢
      rcases hg.2 u hun hus hpos with ⟨v, hval, hvn, hvp⟩
      exact ⟨v, hval, hvn, by rw [tdstep_mono g p queue v hvp]; exact hvp⟩

theorem goodParent_bu (g : Graph) (s : Nat) (p : Nat → Int) (front : Nat → Bool)
    (hg : GoodParent g s p) (hf : ∀ v, front v = true → v < g.n ∧ 0 ≤ p v) :
    GoodParent g s (BUStep g p front).1 := by
  constructor
  · rw [bustep_mono g p front s (by rw [hg.1]; exact Int.natCast_nonneg s)]
    exact hg.1
  · intro u hun hus hpos
    by_cases hneg : p u < 0
    · rcases hfind : (g.adj u).find? front with _ | v
      · rw [(bustep_keep g p front u (Or.inl hfind)).1] at hpos
        omega
      · have hfv : front v = true := List.find?_some hfind
        rcases hf v hfv with ⟨hvn, hvp⟩
        exact ⟨v, (bustep_claim g p front u v hun hneg hfind).1, hvn,
          by rw [bustep_mono g p front v hvp]; exact hvp⟩
    · have hpos' : 0 ≤ p u := by omega
      rw [bustep_mono g p front u hpos'] at hpos ⊢
      rcases hg.2 u hun hus hpos' with ⟨v, hval, hvn, hvp⟩
      exact ⟨v, hval, hvn, by rw [bustep_mono g p front v hvp]; exact hvp⟩

theorem dobfsLoop_mono (g : Graph) (alpha beta : Int) :
    ∀ (fuel : Nat) (st : DState) (q : Nat → Int) (u : Nat),
      dobfsLoop g alpha beta fuel st = some q → 0 ≤ st.parent u → q u = st.parent u := by
  intro fuel
  induction fuel with
  | zero => intro st q u h; cases h
  | succ fuel ih =>
    intro st q u h hpos
    rw [dobfsLoop_succ] at h
    by_cases hq : st.queue = []
    · rw [if_pos hq] at h
      rcases Option.some.injEq _ _ ▸ h with rfl
      rfl
    · rw [if_neg hq] at h
      by_cases hcond : st.scout > Int.tdiv st.edgesToCheck alpha
      · rw [if_pos hcond] at h
        rcases hbu : buLoop g beta (g.n + 2) st.parent (QueueToBitmap st.queue st.front)
            (st.queue.length : Int) with _ | r
        · rw [hbu] at h
          cases h
        · rw [hbu] at h
          have hmono := (buLoop_result g beta (g.n + 2) st.parent
            (QueueToBitmap st.queue st.front) (st.queue.length : Int) r hbu).1 u hpos
          have := ih ⟨r.1, BitmapToQueue g r.2, r.2, st.edgesToCheck, 1⟩ q u h
            (by show (0 : Int) ≤ r.1 u; rw [hmono]; exact hpos)
          rw [this]
          exact hmono
      · rw [if_neg hcond] at h
        have hmono := tdstep_mono g st.parent st.queue u hpos
        have hpos' : (0 : Int) ≤ (TDStep g st.parent st.queue).1 u := by
          rw [hmono]
          exact hpos
        have hres := ih ⟨(TDStep g st.parent st.queue).1, (TDStep g st.parent st.queue).2.1,
            st.front, st.edgesToCheck - st.scout, (TDStep g st.parent st.queue).2.2⟩ q u h hpos'
        rw [hres]
        exact hmono

/-! ### Resolution of the claims -/

theorem gDir3_no_reach : ∀ k, reachB gDir3 0 k 2 = false := by
  intro k
  induction k with
  | zero => decide
  | succ k ih =>
    show (reachB gDir3 0 k 2 || (List.range gDir3.n).any
      (fun u => reachB gDir3 0 k u && decide (2 ∈ gDir3.adj u))) = false
    rw [ih, Bool.false_or]
    apply List.any_eq_false.mpr
    intro u hu
    have hu3 : u < 3 := List.mem_range.mp hu
    intro hc
    rcases Bool.and_eq_true _ _ |>.mp hc with ⟨_, h2⟩
    have h3 : 2 ∈ gDir3.adj u := of_decide_eq_true h2
    interval_cases u <;> simp [gDir3] at h3

/-- C1, counterexample: on the directed graph gDir3 (edges 0→1, 2→0, 2→1)
with source 0, vertex 2 is unreachable from the source, yet DOBFS (which
scans a vertex's single enumerated neighbor list during the bottom-up
step) claims it with parent 0 instead of leaving its initial encoding -2,
so the claim as stated over every finite graph is false. -/
theorem claimC1_counterexample :
    (dobfs gDir3 0 15 18).map (fun p => p 2) = some 0 ∧
    ¬ Reachable gDir3 0 2 ∧
    InitParent gDir3 2 = -2 := by
  refine ⟨by decide, ?_, by decide⟩
  intro ⟨k, hk⟩
  rw [gDir3_no_reach k] at hk
  cases hk

/-- C1 (amended with the symmetry of the enumerated neighbor lists): for
every well-formed symmetric finite graph, every in-range source, and any
positive alpha and beta, DOBFS returns a parent array that is a valid BFS
spanning forest: the source is its own parent, every vertex reachable from
the source has a nonnegative entry, every reachable non-source vertex u
has an enumerated edge from parent[u] to u with depth(u) =
depth(parent[u]) + 1 for the independent-BFS depth, and every unreachable
vertex keeps its initial negative encoding. -/
theorem claimC1_amended (g : Graph) (s : Nat) (alpha beta : Int)
    (hwf : g.WF) (hsym : g.Symm) (hs : s < g.n)
    (_halpha : 0 < alpha) (hbeta : 0 < beta) :
    ∃ p, dobfs g s alpha beta = some p ∧ ForestSpec g s p := by
  rcases dobfs_some g s alpha beta hwf hs hbeta with ⟨p, hp⟩
  exact ⟨p, hp, dobfs_forest hwf hsym hs hp⟩

/-- C1, witness: the amended theorem applied to the symmetric path graph
with source 0 and the default parameters. -/
theorem claimC1_witness :
    ∃ p, dobfs pathSym 0 15 18 = some p ∧ ForestSpec pathSym 0 p :=
  claimC1_amended pathSym 0 15 18 (by decide) (by decide) (by decide)
    (by decide) (by decide)

/-- C2: evaluating the code at the failing input: on gUnreach (vertex 0
isolated, undirected edges 1-2 and 1-3) with source 0, DOBFS leaves
parent[1] = -2 (the negative-degree encoding; the kernel never normalizes
it to -1), the verifier's independent BFS gives depth[1] = -1, and
BFSVerifier therefore returns false on DOBFS's own output, contradicting
the claim that it always returns true. -/
theorem claimC2_behavior :
    (dobfs gUnreach 0 15 18).map (fun p => BFSVerifier gUnreach 0 p) = some false ∧
    (dobfs gUnreach 0 15 18).map (fun p => p 1) = some (-2) ∧
    verifierDepth gUnreach 0 1 = -1 := by decide

/-- C3, counterexample: on the graph gDeg0 (single edge 0→1, vertex 1 of
out-degree 0) the top-down step discovers exactly vertex 1 and returns
scout_count 1, while the sum of out-degrees of the newly discovered
vertices is 0: the encoded value -parent[1] = 1 is accumulated, not the
degree. -/
theorem claimC3_counterexample :
    gDeg0.outDegree 1 = 0 ∧
    (TDStep gDeg0 (fupd (InitParent gDeg0) 0 0) [0]).2.1 = [1] ∧
    (TDStep gDeg0 (fupd (InitParent gDeg0) 0 0) [0]).2.2 = 1 ∧
    (TDStep gDeg0 (fupd (InitParent gDeg0) 0 0) [0]).2.2 ≠
      ((TDStep gDeg0 (fupd (InitParent gDeg0) 0 0) [0]).2.1.map
        (fun v => (gDeg0.outDegree v : Int))).sum := by decide

/-- C3 (amended): when every negative parent entry still holds its initial
encoding, TDStep returns scout_count equal to the sum over the newly
discovered vertices of their encoded values, i.e. max(out_degree, 1) - the
out-degree for positive-degree vertices and 1 for degree-0 vertices; the
flushed next-frontier sequence contains exactly the newly claimed vertices
(without duplicates). -/
theorem claimC3_amended (g : Graph) (p : Nat → Int) (queue : List Nat)
    (hinit : ∀ v, p v < 0 → p v = InitParent g v) :
    (TDStep g p queue).2.2 =
      ((TDStep g p queue).2.1.map (fun v => ((max (g.outDegree v) 1 : Nat) : Int))).sum ∧
    (∀ v, v ∈ (TDStep g p queue).2.1 ↔ (p v < 0 ∧ 0 ≤ (TDStep g p queue).1 v)) ∧
    (TDStep g p queue).2.1.Nodup := by
  rcases tdstep_spec g p queue with ⟨hnd, hmem, hclaim, hkeep, hsum⟩
  refine ⟨?_, ?_, hnd⟩
  · rw [hsum]
    congr 1
    apply List.map_congr_left
    intro v hv
    have hneg : p v < 0 := ((hmem v).mp hv).1
    rw [hinit v hneg, InitParent]
    by_cases hdeg : g.outDegree v ≠ 0
    · rw [if_pos hdeg]
      have h1 : 1 ≤ g.outDegree v := Nat.one_le_iff_ne_zero.mpr hdeg
      have : max (g.outDegree v) 1 = g.outDegree v := Nat.max_eq_left h1
      rw [this]
      ring
    · rw [if_neg hdeg]
      have h0 : g.outDegree v = 0 := by omega
      rw [h0]
      decide
  · intro v
    constructor
    · intro hv
      rcases hclaim v hv with ⟨w, _, _, hval⟩
      refine ⟨((hmem v).mp hv).1, ?_⟩
      rw [hval]
      exact Int.natCast_nonneg w
    · intro ⟨hneg, hpos⟩
      by_contra hc
      rw [hkeep v hc] at hpos
      omega

/-- C3, witness: the amended scout-count equation evaluated on the
degree-0 example. -/
theorem claimC3_witness :
    (TDStep gDeg0 (fupd (InitParent gDeg0) 0 0) [0]).2.2 =
      ((TDStep gDeg0 (fupd (InitParent gDeg0) 0 0) [0]).2.1.map
        (fun v => ((max (gDeg0.outDegree v) 1 : Nat) : Int))).sum :=
  (claimC3_amended gDeg0 (fupd (InitParent gDeg0) 0 0) [0] (by
    intro v hv
    by_cases h0 : v = 0
    · subst h0
      rw [fupd_self] at hv
      omega
    · rw [fupd_ne _ _ _ h0] at hv ⊢)).1

/-- C4: in every controller iteration with a non-empty frontier, the
bottom-up phase is entered exactly when scout_count exceeds
edges_to_check / alpha (truncated integer division); on entry the queue is
converted to a bitmap and awake_count starts as the queue's size; the
bottom-up loop repeats BUStep, swapping the bitmaps (the output bitmap
becomes the next round's front), while awake_count >= old_awake_count or
awake_count > num_nodes / beta; on exit the bitmap is converted back to a
sequence and scout_count is set to 1; otherwise a top-down step runs. -/
theorem claimC4_controller (g : Graph) (alpha beta : Int) (fuel : Nat) (st : DState)
    (hne : st.queue ≠ []) :
    (st.scout > Int.tdiv st.edgesToCheck alpha →
      dobfsLoop g alpha beta (fuel+1) st =
        (match buLoop g beta (g.n + 2) st.parent (QueueToBitmap st.queue st.front)
            (st.queue.length : Int) with
         | none => none
         | some pf =>
           dobfsLoop g alpha beta fuel ⟨pf.1, BitmapToQueue g pf.2, pf.2, st.edgesToCheck, 1⟩)) ∧
    (¬ st.scout > Int.tdiv st.edgesToCheck alpha →
      dobfsLoop g alpha beta (fuel+1) st =
        dobfsLoop g alpha beta fuel
          ⟨(TDStep g st.parent st.queue).1, (TDStep g st.parent st.queue).2.1, st.front,
            st.edgesToCheck - st.scout, (TDStep g st.parent st.queue).2.2⟩) ∧
    (∀ (fl : Nat) (p : Nat → Int) (fr : Nat → Bool) (aw : Int),
      buLoop g beta (fl+1) p fr aw =
        if (BUStep g p fr).2.2 ≥ aw ∨ (BUStep g p fr).2.2 > Int.tdiv (g.n : Int) beta then
          buLoop g beta fl (BUStep g p fr).1 (BUStep g p fr).2.1 (BUStep g p fr).2.2
        else some ((BUStep g p fr).1, (BUStep g p fr).2.1)) := by
  refine ⟨?_, ?_, ?_⟩
  · intro hcond
    rw [dobfsLoop_succ, if_neg hne, if_pos hcond]
  · intro hcond
    rw [dobfsLoop_succ, if_neg hne, if_neg hcond]
  · intro fl p fr aw
    exact buLoop_succ g beta fl p fr aw

/-- C4, witness: the bottom-up trigger taken on the symmetric path graph
from the concrete state cState, where scout_count 1 exceeds
edges_to_check 6 divided by alpha 15. -/
theorem claimC4_witness :
    dobfsLoop pathSym 15 18 6 cState =
      (match buLoop pathSym 18 6 cState.parent (QueueToBitmap cState.queue cState.front)
          (cState.queue.length : Int) with
       | none => none
       | some pf =>
         dobfsLoop pathSym 15 18 5 ⟨pf.1, BitmapToQueue pathSym pf.2, pf.2,
           cState.edgesToCheck, 1⟩) :=
  (claimC4_controller pathSym 15 18 5 cState (by decide)).1 (by decide)

/-- C5: in a bottom-up step the output bitmap starts reset; every vertex u
with parent[u] < 0 whose neighbor enumeration is l1 ++ v :: l2 with no
frontier vertex in l1 and v in the frontier gets parent[u] = v (the first
match, the rest of the scan is skipped), its output bit set and is
counted; a vertex with parent[u] < 0 and no frontier neighbor, a visited
vertex, and an out-of-range vertex are all left unchanged with a clear
bit; awake_count is exactly the number of vertices discovered in the
call. -/
theorem claimC5_bustep (g : Graph) (p : Nat → Int) (front : Nat → Bool) :
    (∀ u l₁ v l₂, u < g.n → p u < 0 → g.adj u = l₁ ++ v :: l₂ →
      (∀ w ∈ l₁, front w = false) → front v = true →
      (BUStep g p front).1 u = (v : Int) ∧ (BUStep g p front).2.1 u = true) ∧
    (∀ u, u < g.n → p u < 0 → (∀ v ∈ g.adj u, front v = false) →
      (BUStep g p front).1 u = p u ∧ (BUStep g p front).2.1 u = false) ∧
    (∀ u, 0 ≤ p u ∨ ¬ u < g.n → (BUStep g p front).1 u = p u ∧
      (BUStep g p front).2.1 u = false) ∧
    (∀ u, (BUStep g p front).2.1 u = true ↔
      (u < g.n ∧ p u < 0 ∧ ∃ v ∈ g.adj u, front v = true)) ∧
    (BUStep g p front).2.2 =
      (((List.range g.n).countP
        (fun u => decide (p u < 0) && ((g.adj u).find? front).isSome) : Nat) : Int) := by
  refine ⟨?_, ?_, ?_, ?_, bustep_count g p front⟩
  · intro u l₁ v l₂ hun hneg hsplit hl₁ hv
    have hfind : (g.adj u).find? front = some v := by
      apply List.find?_eq_some.mpr
      exact ⟨hv, l₁, l₂, hsplit, fun a ha => by rw [Bool.not_eq_true', hl₁ a ha]⟩
    exact bustep_claim g p front u v hun hneg hfind
  · intro u _ _ hnone
    apply bustep_keep g p front u
    left
    apply List.find?_eq_none.mpr
    intro v hv
    rw [hnone v hv]
    exact Bool.false_ne_true
  · intro u hcase
    rcases hcase with hpos | hoff
    · exact bustep_keep g p front u (Or.inr hpos)
    · exact bustep_off g p front u hoff
  · intro u
    constructor
    · intro hbit
      rcases bustep_bit g p front u hbit with ⟨hun, hneg, _⟩
      refine ⟨hun, hneg, ?_⟩
      rcases hfind : (g.adj u).find? front with _ | v
      · rw [(bustep_keep g p front u (Or.inl hfind)).2] at hbit
        cases hbit
      · exact ⟨v, List.mem_of_find?_eq_some hfind, List.find?_some hfind⟩
    · intro ⟨hun, hneg, v, hvadj, hfv⟩
      have hsome : ((g.adj u).find? front).isSome = true :=
        List.find?_isSome.mpr ⟨v, hvadj, hfv⟩
      rcases Option.isSome_iff_exists.mp hsome with ⟨w, hfind⟩
      exact (bustep_claim g p front u w hun hneg hfind).2

/-- C5, witness: on gUnreach with only bit 3 set, vertex 1 (entry -2,
neighbors [2, 3]) skips the non-frontier neighbor 2 and is claimed by the
first frontier neighbor 3. -/
theorem claimC5_witness :
    (BUStep gUnreach (InitParent gUnreach) (fupd (fun _ => false) 3 true)).1 1 = (3 : Int) ∧
    (BUStep gUnreach (InitParent gUnreach) (fupd (fun _ => false) 3 true)).2.1 1 = true :=
  (claimC5_bustep gUnreach (InitParent gUnreach) (fupd (fun _ => false) 3 true)).1
    1 [2] 3 [] (by decide) (by decide) (by decide) (by decide) (by decide)

/-- C6: write-once invariant: a vertex whose parent entry is nonnegative
is never changed again - not by a top-down step, a bottom-up step, the
whole bottom-up loop, nor any number of controller iterations (the
frontier conversions never touch the parent array at all). -/
theorem claimC6_write_once (g : Graph) (alpha beta : Int) (p : Nat → Int) (u : Nat)
    (queue : List Nat) (front : Nat → Bool) (hpos : 0 ≤ p u) :
    (TDStep g p queue).1 u = p u ∧
    (BUStep g p front).1 u = p u ∧
    (∀ (fuel : Nat) (aw : Int) (r : (Nat → Int) × (Nat → Bool)),
      buLoop g beta fuel p front aw = some r → r.1 u = p u) ∧
    (∀ (fuel : Nat) (st : DState) (q : Nat → Int),
      st.parent = p → dobfsLoop g alpha beta fuel st = some q → q u = p u) := by
  refine ⟨tdstep_mono g p queue u hpos, bustep_mono g p front u hpos, ?_, ?_⟩
  · intro fuel aw r hr
    exact (buLoop_result g beta fuel p front aw r hr).1 u hpos
  · intro fuel st q hst hq
    subst hst
    exact dobfsLoop_mono g alpha beta fuel st q u hq hpos

/-- C6, witness: the visited source entry of the symmetric path survives a
top-down step unchanged. -/
theorem claimC6_witness :
    (TDStep pathSym (fupd (InitParent pathSym) 0 0) [0]).1 0 =
      fupd (InitParent pathSym) 0 0 0 :=
  (claimC6_write_once pathSym 15 18 (fupd (InitParent pathSym) 0 0) 0 [0]
    (fun _ => false) (by decide)).1

/-- C7: termination: for every well-formed finite graph, every in-range
source and any positive beta, DOBFS returns (the outer controller loop and
the inner bottom-up loop both exit within the provided fuel g.n + 2, so
the result is some parent array rather than fuel exhaustion). -/
theorem claimC7_termination (g : Graph) (s : Nat) (alpha beta : Int)
    (hwf : g.WF) (hs : s < g.n) (hbeta : 0 < beta) :
    ∃ p, dobfs g s alpha beta = some p :=
  dobfs_some g s alpha beta hwf hs hbeta

/-- C7, witness: DOBFS terminates on the symmetric path graph with the
default parameters. -/
theorem claimC7_witness : ∃ p, dobfs pathSym 0 15 18 = some p :=
  claimC7_termination pathSym 0 15 18 (by decide) (by decide) (by decide)

/-- C8: the parent-array initializer sets, for every vertex, -out_degree
when the out-degree is positive and -1 when it is zero. -/
theorem claimC8_init (g : Graph) (u : Nat) :
    (0 < g.outDegree u → InitParent g u = -(g.outDegree u : Int)) ∧
    (g.outDegree u = 0 → InitParent g u = -1) := by
  constructor
  · intro h
    rw [InitParent, if_pos (by omega)]
  · intro h
    rw [InitParent, if_neg (by omega)]

/-- C8, witness: both branches of the initializer encoding on the
two-vertex graph with one edge. -/
theorem claimC8_witness :
    (0 < gDeg0.outDegree 0 ∧ InitParent gDeg0 0 = -(gDeg0.outDegree 0 : Int)) ∧
    (gDeg0.outDegree 1 = 0 ∧ InitParent gDeg0 1 = -1) :=
  ⟨⟨by decide, (claimC8_init gDeg0 0).1 (by decide)⟩,
   ⟨by decide, (claimC8_init gDeg0 1).2 (by decide)⟩⟩

/-- C9, counterexample: on the path with the directed edges 0→1, 1→2, 2→3
only (each edge enumerated at its tail), DOBFS from source 0 with the
default parameters immediately switches to the bottom-up phase (scout 1 >
3/15), the bottom-up scan of out-neighbors finds nothing, and the
traversal ends with parent = [0, -1, -1, -1], not [0, 0, 1, 2]. -/
theorem claimC9_counterexample :
    (dobfs pathDir 0 15 18).map (fun p => (List.range 4).map p) = some [0, -1, -1, -1] ∧
    ¬ (dobfs pathDir 0 15 18).map (fun p => (List.range 4).map p) = some [0, 0, 1, 2] := by
  decide

/-- C9 (amended): on the path graph stored with both directions of every
edge (0-1-2-3), DOBFS from source 0 with the default parameters alpha = 15
and beta = 18 returns the parent array [0, 0, 1, 2]. -/
theorem claimC9_amended :
    (dobfs pathSym 0 15 18).map (fun p => (List.range 4).map p) = some [0, 0, 1, 2] := by
  decide

/-- C10: implicit claimed-predecessor invariant: after the initialization
parent[source] = source the parent array satisfies GoodParent (every
claimed non-source vertex records an in-range, itself-claimed
predecessor), and both steps preserve GoodParent provided the frontier
they read contains only in-range visited vertices - which is exactly what
the traversal invariant supplies. -/
theorem claimC10_claimed_parent (g : Graph) (s : Nat) (p : Nat → Int)
    (queue : List Nat) (front : Nat → Bool) :
    GoodParent g s (fupd (InitParent g) s (s : Int)) ∧
    (GoodParent g s p → (∀ u ∈ queue, u < g.n ∧ 0 ≤ p u) →
      GoodParent g s (TDStep g p queue).1) ∧
    (GoodParent g s p → (∀ v, front v = true → v < g.n ∧ 0 ≤ p v) →
      GoodParent g s (BUStep g p front).1) := by
  refine ⟨⟨fupd_self _ _ _, ?_⟩, ?_, ?_⟩
  · intro u _ hus hpos
    rw [fupd_ne _ _ _ hus] at hpos
    have := initParent_neg g u
    omega
  · intro hg hq
    exact goodParent_td g s p queue hg hq
  · intro hg hf
    exact goodParent_bu g s p front hg hf

/-- C10, witness: the invariant holds right after initialization on the
symmetric path graph. -/
theorem claimC10_witness : GoodParent pathSym 0 (fupd (InitParent pathSym) 0 (0 : Int)) :=
  (claimC10_claimed_parent pathSym 0 (InitParent pathSym) [] (fun _ => false)).1
